import Mathlib

/-!
# remove-duplicates: duplicate resolution and content hashing

A shallow embedding of `main.go`:

* the file system is a finite table of paths with their modification times;
  `os.Stat` is a lookup, `os.Remove` deletes the entry.  A path string stands
  for a file of its own: two spellings of one file, and a removal that fails on
  an existing file, are outside the table.  The results on survivors and on
  the dry run are therefore stated on what a run plans, reports and passes to
  `os.Remove`;
* `removeDuplicates` is a loop over the entries of `fileHashes`; its body is
  `processBucket`.  A Go map is visited in an order chosen afresh by every
  `range` statement, so a run is given the list of entries in the order it
  visits them, and two runs over one map may be given two orders.  A run
  either completes or ends in the nil-dereference panic raised by
  `fi.ModTime()` when `os.Stat` returned no `FileInfo`;
* `sort.Slice` belongs to the standard library.  The resolver takes the
  sorting routine as a parameter subject to `SortSliceContract`;
  `insertionSort` is the routine `sort.Slice` runs on slices of at most
  twelve elements and is shown to meet the contract;
* `hashFiles` is a pool of workers taking paths from a closed queue; the
  interleaving of the workers is an explicit schedule.
-/

namespace RemoveDuplicates

/-! ## File system -/

abbrev Path := String

/-- Modification time of a file, as an instant on the time line. -/
abbrev ModTime := Int

/-- The regular files that exist, each under its path string and with its
modification time. -/
structure FileSystem where
  entries : List (Path × ModTime)
deriving DecidableEq, Repr

/-- The call `os.Stat(p)` followed by `ModTime()`: `none` when `os.Stat`
returns an error. -/
def osStat (fs : FileSystem) (p : Path) : Option ModTime :=
  match fs.entries.find? (fun e => e.1 == p) with
  | some e => some e.2
  | none => none

/-- The call `os.Remove(p)`; the error result is discarded by every caller. -/
def osRemove (fs : FileSystem) (p : Path) : FileSystem :=
  ⟨fs.entries.filter (fun e => e.1 != p)⟩

/-! ## sort.Slice -/

/-- A comparator over slice elements; `none` is a panic inside the closure. -/
abbrev Less := Path → Path → Option Bool

/-- A sorting routine: `none` when a comparison panicked. -/
abbrev Sorter := Less → List Path → Option (List Path)

/-- The closure passed to `sort.Slice` under `removeBy = "newest"`:
`fi.ModTime().After(fj.ModTime())`, with both `os.Stat` errors ignored. -/
def lessNewest (fs : FileSystem) : Less := fun a b =>
  match osStat fs a, osStat fs b with
  | some ta, some tb => some (decide (tb < ta))
  | _, _ => none

/-- The closure passed to `sort.Slice` under `removeBy = "oldest"`:
`fi.ModTime().Before(fj.ModTime())`, with both `os.Stat` errors ignored. -/
def lessOldest (fs : FileSystem) : Less := fun a b =>
  match osStat fs a, osStat fs b with
  | some ta, some tb => some (decide (ta < tb))
  | _, _ => none

/-- Inner loop of the library insertion sort: `x` sits just after the sorted
prefix, whose elements are given last-first, and is swapped towards the front
while `less(j, j-1)` holds. -/
def insertBack (less : Less) (x : Path) : List Path → Option (List Path)
  | [] => some [x]
  | y :: ys =>
    match less x y with
    | none => none
    | some true => (insertBack less x ys).map (fun r => y :: r)
    | some false => some (x :: y :: ys)

/-- Outer loop of the library insertion sort; `acc` is the sorted prefix,
last element first. -/
def insertionSortAux (less : Less) : List Path → List Path → Option (List Path)
  | acc, [] => some acc.reverse
  | acc, x :: xs =>
    match insertBack less x acc with
    | none => none
    | some acc' => insertionSortAux less acc' xs

/-- The insertion sort that `sort.Slice` applies to a slice of at most twelve
elements. -/
def insertionSort : Sorter := fun less l => insertionSortAux less [] l

/-- What the resolver relies on from `sort.Slice`: it only permutes the slice,
it returns when no comparison panics, its result is ordered when the
comparator is a strict weak order on the slice, and it consults the
comparator on elements of the slice only. -/
structure SortSliceContract (srt : Sorter) : Prop where
  perm : ∀ (less : Less) (l r : List Path), srt less l = some r → r.Perm l
  returns : ∀ (less : Less) (l : List Path),
    (∀ a ∈ l, ∀ b ∈ l, less a b ≠ none) → (srt less l).isSome = true
  sorted : ∀ (less : Less) (l r : List Path),
    (∀ a ∈ l, ∀ b ∈ l, less a b ≠ none) →
    (∀ a ∈ l, ∀ b ∈ l, less a b = some true → less b a = some false) →
    (∀ a ∈ l, ∀ b ∈ l, ∀ c ∈ l,
      less a b = some false → less b c = some false → less a c = some false) →
    srt less l = some r → r.Pairwise (fun a b => less b a = some false)
  loc : ∀ (less less2 : Less) (l : List Path),
    (∀ a ∈ l, ∀ b ∈ l, less a b = less2 a b) → srt less l = srt less2 l

/-! ## Console -/

/-- The lines `removeDuplicates` prints. -/
inductive Event where
  | wouldRemoveReferent (file : Path)
  | removingReferent (file : Path)
  | wouldRemove (file : Path)
  | removing (file : Path)
  | duplicatesFound (hash : String)
  | statError (file : Path)
  | listing (index : Nat) (file : Path) (modTime : ModTime)
  | selectPrompt
deriving DecidableEq, Repr

/-- Paths named by the "Would remove" lines, in print order. -/
def wouldRemovePaths : List Event → List Path
  | [] => []
  | Event.wouldRemove f :: es => f :: wouldRemovePaths es
  | Event.wouldRemoveReferent f :: es => f :: wouldRemovePaths es
  | _ :: es => wouldRemovePaths es

/-- Paths named by the "Removing" lines, each of which is followed by the
call `os.Remove` on that path. -/
def removingPaths : List Event → List Path
  | [] => []
  | Event.removing f :: es => f :: removingPaths es
  | Event.removingReferent f :: es => f :: removingPaths es
  | _ :: es => removingPaths es

/-- Paths planned for removal: reported in a dry run, deleted otherwise. -/
def plannedPaths (es : List Event) : List Path :=
  wouldRemovePaths es ++ removingPaths es

/-- Whether the run printed the interactive selection prompt. -/
def prompted (es : List Event) : Bool :=
  es.any (fun e => e == Event.selectPrompt)

/-! ## parseInput -/

/-- The function `strings.Split(s, ",")`, on the characters of `s`. -/
def splitComma : List Char → List (List Char)
  | [] => [[]]
  | c :: cs =>
    if c = ',' then [] :: splitComma cs
    else match splitComma cs with
      | [] => [[c]]
      | t :: ts => (c :: t) :: ts

/-- Value of a decimal digit. -/
def digitVal (c : Char) : Option Nat :=
  if '0' ≤ c ∧ c ≤ '9' then some (c.toNat - '0'.toNat) else none

/-- Value of a string of decimal digits read after the value `acc`. -/
def digitsVal (acc : Nat) : List Char → Option Nat
  | [] => some acc
  | c :: cs =>
    match digitVal c with
    | none => none
    | some d => digitsVal (acc * 10 + d) cs

/-- The function `strconv.Atoi` for a 64-bit `int`: an optional sign, then
one or more decimal digits, the value within the range of `int`. -/
def atoi (s : List Char) : Option Int :=
  let body : Bool × List Char :=
    match s with
    | '-' :: r => (true, r)
    | '+' :: r => (false, r)
    | _ => (false, s)
  match body.2 with
  | [] => none
  | ds =>
    match digitsVal 0 ds with
    | none => none
    | some n =>
      let v : Int := if body.1 then -(n : Int) else (n : Int)
      if -(2 : Int) ^ 63 ≤ v ∧ v < (2 : Int) ^ 63 then some v else none

/-- Body of the loop of `parseInput`: the token is appended when
`strconv.Atoi` returns no error. -/
def parseStep (indices : List Int) (s : List Char) : List Int :=
  match atoi s with
  | some i => indices ++ [i]
  | none => indices

/-- The function `parseInput`: the tokens that `strconv.Atoi` accepts. -/
def parseInput (input : String) : List Int :=
  (splitComma input.toList).foldl parseStep []

/-! ## removeDuplicates -/

/-- The process-wide flags read by `removeDuplicates`. -/
structure Config where
  dryRun : Bool
  removeBy : String
deriving DecidableEq, Repr

/-- The state a run ends in, the lines it printed, and whether it ended in a
panic. -/
structure Result where
  fs : FileSystem
  stdin : List String
  out : List Event
  crashed : Bool
deriving DecidableEq, Repr

/-- A map of type `map[string][]string` as the list of its entries, in the
order one `range` statement visits them; another `range` over the same map may
visit a permutation of the list. -/
abbrev HashMap := List (String × List Path)

/-- The comma-ok lookup `_, exists := m[hash]`. -/
def hasKey (m : HashMap) (hash : String) : Bool :=
  m.any (fun e => e.1 == hash)

/-- The loop `for _, file := range files` that reports or removes each file. -/
def removeFiles (dryRun referent : Bool) :
    List Path → FileSystem → FileSystem × List Event
  | [], fs => (fs, [])
  | file :: rest, fs =>
    if dryRun then
      let r := removeFiles dryRun referent rest fs
      (r.1, (if referent then Event.wouldRemoveReferent file
             else Event.wouldRemove file) :: r.2)
    else
      let r := removeFiles dryRun referent rest (osRemove fs file)
      (r.1, (if referent then Event.removingReferent file
             else Event.removing file) :: r.2)

/-- The listing loop of the interactive case, from index `i` on. -/
def listFiles (fs : FileSystem) : Nat → List Path → List Event
  | _, [] => []
  | i, file :: rest =>
    match osStat fs file with
    | none => Event.statError file :: listFiles fs (i + 1) rest
    | some t => Event.listing i file t :: listFiles fs (i + 1) rest

/-- The word `fmt.Scanln(&input)` stores: the next word of standard input, or
the empty string when there is none. -/
def scanln (stdin : List String) : String × List String :=
  match stdin with
  | [] => ("", [])
  | s :: rest => (s, rest)

/-- Body of the loop over `indices` in the interactive case. -/
def selectStep (files : List Path) (toRemove : List Path) (index : Int) : List Path :=
  if 0 ≤ index ∧ index < (files.length : Int) then
    match files[index.toNat]? with
    | some f => toRemove ++ [f]
    | none => toRemove
  else toRemove

/-- The loop over `indices` in the interactive case. -/
def selectIndices (files : List Path) (indices : List Int) : List Path :=
  indices.foldl (selectStep files) []

/-- The `switch removeBy` statement: the value of `toRemove`, or `none` when a
comparison panics; with the lines printed and the rest of standard input. -/
def chooseToRemove (srt : Sorter) (removeBy hash : String) (files : List Path)
    (fs : FileSystem) (stdin : List String) :
    Option (List Path) × List Event × List String :=
  if removeBy = "newest" then
    ((srt (lessNewest fs) files).map (fun sorted => sorted.drop 1), [], stdin)
  else if removeBy = "oldest" then
    ((srt (lessOldest fs) files).map (fun sorted => sorted.drop 1), [], stdin)
  else if removeBy = "interactive" then
    let shown := Event.duplicatesFound hash :: listFiles fs 0 files
      ++ [Event.selectPrompt]
    let inp := scanln stdin
    if inp.1 = "a" then (some (files.drop 1), shown, inp.2)
    else (some (selectIndices files (parseInput inp.1)), shown, inp.2)
  else (some [], [], stdin)

/-- The body of the loop of `removeDuplicates` for one entry of `fileHashes`. -/
def processBucket (srt : Sorter) (cfg : Config) (referentHashes : HashMap)
    (hash : String) (files : List Path) (fs : FileSystem)
    (stdin : List String) : Result :=
  if hasKey referentHashes hash then
    let r := removeFiles cfg.dryRun true files fs
    ⟨r.1, stdin, r.2, false⟩
  else if files.length ≤ 1 then
    ⟨fs, stdin, [], false⟩
  else
    match chooseToRemove srt cfg.removeBy hash files fs stdin with
    | (none, shown, stdin2) => ⟨fs, stdin2, shown, true⟩
    | (some toRemove, shown, stdin2) =>
      let r := removeFiles cfg.dryRun false toRemove fs
      ⟨r.1, stdin2, shown ++ r.2, false⟩

/-- The function `removeDuplicates`, over the entries of `fileHashes` in
iteration order. -/
def removeDuplicates (srt : Sorter) (cfg : Config) (referentHashes : HashMap) :
    HashMap → FileSystem → List String → Result
  | [], fs, stdin => ⟨fs, stdin, [], false⟩
  | (hash, files) :: rest, fs, stdin =>
    let r := processBucket srt cfg referentHashes hash files fs stdin
    if r.crashed then r
    else
      let r2 := removeDuplicates srt cfg referentHashes rest r.fs r.stdin
      ⟨r2.fs, r2.stdin, r.out ++ r2.out, r2.crashed⟩

/-! ## hashFiles -/

/-- The result of `computeHash` for every path: the digest bytes, or `none`
when the file cannot be opened or read.  The files are taken not to change
while `hashFiles` runs, so the result depends on the path alone. -/
abbrev HashOracle := Path → Option (List UInt8)

/-- One hexadecimal digit, lower case. -/
def hexDigit (n : Nat) : Char :=
  if n < 10 then Char.ofNat (48 + n) else Char.ofNat (87 + n)

/-- The call `fmt.Sprintf("%x", hash)`. -/
def sprintfHex (hash : List UInt8) : String :=
  String.mk (hash.flatMap (fun b => [hexDigit (b.toNat / 16), hexDigit (b.toNat % 16)]))

/-- The statement `hashMap[k] = append(hashMap[k], file)`. -/
def appendTo : HashMap → String → Path → HashMap
  | [], k, file => [(k, [file])]
  | (k2, bucket) :: rest, k, file =>
    if k2 = k then (k2, bucket ++ [file]) :: rest
    else (k2, bucket) :: appendTo rest k file

/-- The index expression `m[k]`: the bucket, empty when the key is absent. -/
def mapGet (m : HashMap) (k : String) : List Path :=
  match m.find? (fun e => e.1 == k) with
  | some e => e.2
  | none => []

/-- The worker pool of `hashFiles`: the paths still in `fileChan`, the workers
that hold a path they have not stored yet, and the shared map. -/
structure PoolState where
  queue : List Path
  busy : List (Nat × Path)
  hashMap : HashMap
deriving DecidableEq, Repr

/-- One move of worker `w`: it receives the next path from the channel, or it
hashes the path it holds and, on success, stores it under the mutex. -/
def workerStep (computeHash : HashOracle) (threads w : Nat) (s : PoolState) :
    PoolState :=
  if w < threads then
    match s.busy.find? (fun e => e.1 == w) with
    | some e =>
      let busy := s.busy.eraseP (fun e => e.1 == w)
      match computeHash e.2 with
      | none => { s with busy := busy }
      | some hash =>
        { s with busy := busy, hashMap := appendTo s.hashMap (sprintfHex hash) e.2 }
    | none =>
      match s.queue with
      | [] => s
      | file :: rest => { s with queue := rest, busy := (w, file) :: s.busy }
  else s

/-- The pool after the workers moved in the order `sched`. -/
def runPool (computeHash : HashOracle) (threads : Nat) (sched : List Nat)
    (s : PoolState) : PoolState :=
  sched.foldl (fun st w => workerStep computeHash threads w st) s

/-- Whether `wg.Wait()` returns: every started worker found the channel
drained and holds no path. -/
def poolDone (threads : Nat) (s : PoolState) : Bool :=
  s.busy.isEmpty && (threads == 0 || s.queue.isEmpty)

/-- The function `hashFiles` under the schedule `sched`: the map returned once
the wait group is released, `none` while workers are still running. -/
def hashFiles (computeHash : HashOracle) (threads : Nat) (files : List Path)
    (sched : List Nat) : Option HashMap :=
  let s := runPool computeHash threads sched ⟨files, [], []⟩
  if poolDone threads s then some s.hashMap else none

/-! ## Vocabulary of the specification -/

/-- The path `m` of the bucket has the latest modification time. -/
def Latest (fs : FileSystem) (files : List Path) (m : Path) : Prop :=
  m ∈ files ∧ ∃ tm, osStat fs m = some tm ∧
    ∀ p ∈ files, p ≠ m → ∃ tp, osStat fs p = some tp ∧ tp < tm

/-- The path `m` of the bucket has the earliest modification time. -/
def Earliest (fs : FileSystem) (files : List Path) (m : Path) : Prop :=
  m ∈ files ∧ ∃ tm, osStat fs m = some tm ∧
    ∀ p ∈ files, p ≠ m → ∃ tp, osStat fs p = some tp ∧ tm < tp

/-- The selection the specification describes for an input other than "a":
for each comma-separated token, in token order, the path at index `i` when the
token parses as an integer `i` with `0 ≤ i < len(files)`; other tokens are
dropped. -/
def specSelection (files : List Path) (input : String) : List Path :=
  (splitComma input.toList).filterMap (fun token =>
    match atoi token with
    | some i => if 0 ≤ i ∧ i < (files.length : Int) then files[i.toNat]? else none
    | none => none)

/-- A further property of `sort.Slice`: when it returns on a slice of two or
more elements, every element took part in a comparison that returned. -/
def SortSliceCompares (srt : Sorter) : Prop :=
  ∀ (less : Less) (l r : List Path), srt less l = some r → 2 ≤ l.length →
    ∀ a ∈ l, ∃ b ∈ l, less a b ≠ none ∨ less b a ≠ none

/-- The key under which `hashFiles` files a path: the hex digest, `none` when
`computeHash` fails. -/
def hashString (computeHash : HashOracle) (p : Path) : Option String :=
  (computeHash p).map sprintfHex

/-- The keys of a map, in iteration order. -/
def mapKeys (m : HashMap) : List String := m.map Prod.fst

/-- Work left in the pool: two moves for a queued path, one for a held one. -/
def poolMeasure (s : PoolState) : Nat := 2 * s.queue.length + s.busy.length

/-- What holds of the pool at every moment: only started workers hold a path,
every input path is queued, held or handled, and the map files the handled
paths that hashed under their hex digests, each key once and no bucket empty. -/
def PoolInv (computeHash : HashOracle) (threads : Nat) (files : List Path)
    (s : PoolState) : Prop :=
  (∀ e ∈ s.busy, e.1 < threads) ∧
  (mapKeys s.hashMap).Nodup ∧
  (∀ e ∈ s.hashMap, e.2 ≠ []) ∧
  ∃ handled : List Path,
    (handled ++ s.busy.map Prod.snd ++ s.queue).Perm files ∧
    ∀ k, (mapGet s.hashMap k).Perm
      (handled.filter (fun p => hashString computeHash p == some k))

/-- A sample `computeHash`: f1 and f2 share their content, f3 differs, and
every other path cannot be opened. -/
def sampleHash : HashOracle := fun p =>
  if p = "f1" ∨ p = "f2" then some [0xab, 0x01]
  else if p = "f3" then some [0x3c, 0xff]
  else none

/-! ## The library insertion sort meets the contract -/

theorem insertBack_perm (less : Less) (x : Path) :
    ∀ (acc r : List Path), insertBack less x acc = some r → r.Perm (x :: acc) := by
  intro acc
  induction acc with
  | nil => intro r h; simp [insertBack] at h; subst h; exact List.Perm.refl _
  | cons y ys ih =>
    intro r h
    unfold insertBack at h
    cases hl : less x y with
    | none => simp [hl] at h
    | some b =>
      cases b with
      | true =>
        simp only [hl] at h
        cases hr : insertBack less x ys with
        | none => simp [hr] at h
        | some r2 =>
          simp [hr] at h
          subst h
          exact ((ih r2 hr).cons y).trans (List.Perm.swap x y ys)
      | false =>
        simp [hl] at h
        subst h
        exact List.Perm.refl _

theorem insertBack_isSome (less : Less) (x : Path) :
    ∀ (acc : List Path), (∀ y ∈ acc, less x y ≠ none) →
      (insertBack less x acc).isSome = true := by
  intro acc
  induction acc with
  | nil => intro _; simp [insertBack]
  | cons y ys ih =>
    intro h
    unfold insertBack
    cases hl : less x y with
    | none => exact absurd hl (h y (List.mem_cons_self _ _))
    | some b =>
      cases b with
      | true =>
        have := ih (fun z hz => h z (List.mem_cons_of_mem _ hz))
        simpa using this
      | false => simp

theorem insertBack_congr (less less2 : Less) (x : Path) :
    ∀ (acc : List Path), (∀ y ∈ acc, less x y = less2 x y) →
      insertBack less x acc = insertBack less2 x acc := by
  intro acc
  induction acc with
  | nil => intro _; simp [insertBack]
  | cons y ys ih =>
    intro h
    unfold insertBack
    rw [← h y (List.mem_cons_self _ _), ih (fun z hz => h z (List.mem_cons_of_mem _ hz))]

theorem insertBack_sorted (less : Less) (S : Path → Prop) (x : Path) (hx : S x)
    (asym : ∀ a b, S a → S b → less a b = some true → less b a = some false)
    (ntr : ∀ a b c, S a → S b → S c →
      less a b = some false → less b c = some false → less a c = some false) :
    ∀ (acc r : List Path), (∀ y ∈ acc, S y) →
      acc.Pairwise (fun a b => less a b = some false) →
      insertBack less x acc = some r →
      r.Pairwise (fun a b => less a b = some false) := by
  intro acc
  induction acc with
  | nil => intro r _ _ h; simp [insertBack] at h; subst h; simp
  | cons y ys ih =>
    intro r hS hp h
    unfold insertBack at h
    have hy : S y := hS y (List.mem_cons_self _ _)
    have hys : ∀ z ∈ ys, S z := fun z hz => hS z (List.mem_cons_of_mem _ hz)
    rw [List.pairwise_cons] at hp
    cases hl : less x y with
    | none => simp [hl] at h
    | some b =>
      cases b with
      | true =>
        simp only [hl] at h
        cases hr : insertBack less x ys with
        | none => simp [hr] at h
        | some r2 =>
          simp [hr] at h
          subst h
          rw [List.pairwise_cons]
          refine ⟨?_, ih r2 hys hp.2 hr⟩
          intro z hz
          have hz2 := (insertBack_perm less x ys r2 hr).subset hz
          rcases List.mem_cons.1 hz2 with h1 | h1
          · subst h1; exact asym _ _ hx hy hl
          · exact hp.1 z h1
      | false =>
        simp [hl] at h
        subst h
        rw [List.pairwise_cons]
        refine ⟨?_, List.pairwise_cons.2 hp⟩
        intro z hz
        rcases List.mem_cons.1 hz with h1 | h1
        · subst h1; exact hl
        · exact ntr _ _ _ hx hy (hys z h1) hl (hp.1 z h1)

theorem insertionSortAux_perm (less : Less) :
    ∀ (xs acc r : List Path), insertionSortAux less acc xs = some r →
      r.Perm (acc.reverse ++ xs) := by
  intro xs
  induction xs with
  | nil =>
    intro acc r h
    simp [insertionSortAux] at h
    subst h
    simp
  | cons x xs ih =>
    intro acc r h
    unfold insertionSortAux at h
    cases hi : insertBack less x acc with
    | none => simp [hi] at h
    | some acc2 =>
      simp only [hi] at h
      refine (ih acc2 r h).trans ?_
      have hp := insertBack_perm less x acc acc2 hi
      have h1 : (acc2.reverse).Perm (acc.reverse ++ [x]) :=
        (List.reverse_perm acc2).trans
          (hp.trans ((List.perm_append_singleton x acc).symm.trans
            ((List.reverse_perm acc).symm.append_right [x])))
      simpa using h1.append_right xs

theorem insertionSortAux_isSome (less : Less) :
    ∀ (xs acc : List Path),
      (∀ a, a ∈ acc ∨ a ∈ xs → ∀ b, b ∈ acc ∨ b ∈ xs → less a b ≠ none) →
      (insertionSortAux less acc xs).isSome = true := by
  intro xs
  induction xs with
  | nil => intro acc _; simp [insertionSortAux]
  | cons x xs ih =>
    intro acc h
    unfold insertionSortAux
    have h1 := insertBack_isSome less x acc
      (fun y hy => h x (Or.inr (List.mem_cons_self _ _)) y (Or.inl hy))
    cases hi : insertBack less x acc with
    | none => simp [hi] at h1
    | some acc2 =>
      simp only
      have hp := insertBack_perm less x acc acc2 hi
      have hm : ∀ a, a ∈ acc2 ∨ a ∈ xs → a ∈ acc ∨ a ∈ x :: xs := by
        intro a ha
        rcases ha with ha | ha
        · rcases List.mem_cons.1 (hp.subset ha) with h2 | h2
          · subst h2; exact Or.inr (List.mem_cons_self _ _)
          · exact Or.inl h2
        · exact Or.inr (List.mem_cons_of_mem _ ha)
      exact ih acc2 (fun a ha b hb => h a (hm a ha) b (hm b hb))

theorem insertionSortAux_congr (less less2 : Less) :
    ∀ (xs acc : List Path),
      (∀ a, a ∈ acc ∨ a ∈ xs → ∀ b, b ∈ acc ∨ b ∈ xs → less a b = less2 a b) →
      insertionSortAux less acc xs = insertionSortAux less2 acc xs := by
  intro xs
  induction xs with
  | nil => intro acc _; simp [insertionSortAux]
  | cons x xs ih =>
    intro acc h
    unfold insertionSortAux
    rw [← insertBack_congr less less2 x acc
      (fun y hy => h x (Or.inr (List.mem_cons_self _ _)) y (Or.inl hy))]
    cases hi : insertBack less x acc with
    | none => rfl
    | some acc2 =>
      simp only
      have hp := insertBack_perm less x acc acc2 hi
      have hm : ∀ a, a ∈ acc2 ∨ a ∈ xs → a ∈ acc ∨ a ∈ x :: xs := by
        intro a ha
        rcases ha with ha | ha
        · rcases List.mem_cons.1 (hp.subset ha) with h2 | h2
          · subst h2; exact Or.inr (List.mem_cons_self _ _)
          · exact Or.inl h2
        · exact Or.inr (List.mem_cons_of_mem _ ha)
      exact ih acc2 (fun a ha b hb => h a (hm a ha) b (hm b hb))

theorem insertionSortAux_sorted (less : Less) (S : Path → Prop)
    (asym : ∀ a b, S a → S b → less a b = some true → less b a = some false)
    (ntr : ∀ a b c, S a → S b → S c →
      less a b = some false → less b c = some false → less a c = some false) :
    ∀ (xs acc r : List Path), (∀ y ∈ acc, S y) → (∀ y ∈ xs, S y) →
      acc.Pairwise (fun a b => less a b = some false) →
      insertionSortAux less acc xs = some r →
      r.Pairwise (fun a b => less b a = some false) := by
  intro xs
  induction xs with
  | nil =>
    intro acc r _ _ hp h
    simp [insertionSortAux] at h
    subst h
    exact List.pairwise_reverse.2 hp
  | cons x xs ih =>
    intro acc r hacc hxs hp h
    unfold insertionSortAux at h
    cases hi : insertBack less x acc with
    | none => simp [hi] at h
    | some acc2 =>
      simp only [hi] at h
      have hx : S x := hxs x (List.mem_cons_self _ _)
      have hperm := insertBack_perm less x acc acc2 hi
      have hacc2 : ∀ y ∈ acc2, S y := by
        intro y hy
        rcases List.mem_cons.1 (hperm.subset hy) with h2 | h2
        · subst h2; exact hx
        · exact hacc y h2
      exact ih acc2 r hacc2 (fun y hy => hxs y (List.mem_cons_of_mem _ hy))
        (insertBack_sorted less S x hx asym ntr acc acc2 hacc hp hi) h

/-- The insertion sort of the standard library meets the contract. -/
theorem insertionSort_contract : SortSliceContract insertionSort where
  perm := by
    intro less l r h
    simpa using insertionSortAux_perm less l [] r h
  returns := by
    intro less l h
    apply insertionSortAux_isSome
    intro a ha b hb
    rcases ha with ha | ha
    · simp at ha
    rcases hb with hb | hb
    · simp at hb
    exact h a ha b hb
  sorted := by
    intro less l r _ asym ntr h
    exact insertionSortAux_sorted less (fun p => p ∈ l)
      (fun a b ha hb => asym a ha b hb)
      (fun a b c ha hb hc => ntr a ha b hb c hc)
      l [] r (by simp) (fun y hy => hy) List.Pairwise.nil h
  loc := by
    intro less less2 l h
    apply insertionSortAux_congr
    intro a ha b hb
    rcases ha with ha | ha
    · simp at ha
    rcases hb with hb | hb
    · simp at hb
    exact h a ha b hb

/-! ## File system and removal loop -/

theorem osStat_osRemove_self (fs : FileSystem) (p : Path) :
    osStat (osRemove fs p) p = none := by
  have h : (fs.entries.filter (fun e => e.1 != p)).find? (fun e => e.1 == p) = none := by
    rw [List.find?_eq_none]
    intro e he
    have := (List.mem_filter.1 he).2
    simpa using this
  simp [osStat, osRemove, h]

theorem osStat_osRemove_ne (fs : FileSystem) (p q : Path) (h : p ≠ q) :
    osStat (osRemove fs q) p = osStat fs p := by
  have h2 : (fs.entries.filter (fun e => e.1 != q)).find? (fun e => e.1 == p)
      = fs.entries.find? (fun e => e.1 == p) := by
    induction fs.entries with
    | nil => rfl
    | cons e es ih =>
      by_cases he : e.1 = q
      · have hne : (e.1 == p) = false := by
          rw [beq_eq_false_iff_ne]
          exact fun hp => h (hp.symm.trans he)
        have hq : (e.1 != q) = false := by simp [he]
        rw [List.filter_cons, List.find?_cons, hq, hne]
        simpa using ih
      · have hq : (e.1 != q) = true := by simp [he]
        rw [List.filter_cons, hq]
        simp only [if_true, List.find?_cons]
        rw [ih]
  simp [osStat, osRemove, h2]

theorem removeFiles_dry (referent : Bool) (files : List Path) (fs : FileSystem) :
    removeFiles true referent files fs
      = (fs, files.map (fun f => if referent then Event.wouldRemoveReferent f
                                else Event.wouldRemove f)) := by
  induction files with
  | nil => rfl
  | cons f rest ih => simp [removeFiles, ih]

theorem removeFiles_real (referent : Bool) (files : List Path) :
    ∀ fs : FileSystem, removeFiles false referent files fs
      = (files.foldl osRemove fs,
         files.map (fun f => if referent then Event.removingReferent f
                             else Event.removing f)) := by
  induction files with
  | nil => intro fs; rfl
  | cons f rest ih => intro fs; simp [removeFiles, ih]

theorem wouldRemovePaths_append (a b : List Event) :
    wouldRemovePaths (a ++ b) = wouldRemovePaths a ++ wouldRemovePaths b := by
  induction a with
  | nil => rfl
  | cons e es ih => cases e <;> simp [wouldRemovePaths, ih]

theorem removingPaths_append (a b : List Event) :
    removingPaths (a ++ b) = removingPaths a ++ removingPaths b := by
  induction a with
  | nil => rfl
  | cons e es ih => cases e <;> simp [removingPaths, ih]

theorem paths_removeFiles (dryRun referent : Bool) (files : List Path) (fs : FileSystem) :
    wouldRemovePaths (removeFiles dryRun referent files fs).2
        = (if dryRun then files else []) ∧
      removingPaths (removeFiles dryRun referent files fs).2
        = (if dryRun then [] else files) := by
  cases dryRun with
  | true =>
    rw [removeFiles_dry]
    induction files with
    | nil => simp [wouldRemovePaths, removingPaths]
    | cons f rest ih =>
      cases referent <;> simp_all [wouldRemovePaths, removingPaths]
  | false =>
    rw [removeFiles_real]
    induction files with
    | nil => simp [wouldRemovePaths, removingPaths]
    | cons f rest ih =>
      cases referent <;> simp_all [wouldRemovePaths, removingPaths]

theorem plannedPaths_removeFiles (dryRun referent : Bool) (files : List Path)
    (fs : FileSystem) :
    plannedPaths (removeFiles dryRun referent files fs).2 = files := by
  have h := paths_removeFiles dryRun referent files fs
  unfold plannedPaths
  rw [h.1, h.2]
  cases dryRun <;> simp

theorem prompted_removeFiles (dryRun referent : Bool) (files : List Path)
    (fs : FileSystem) :
    prompted (removeFiles dryRun referent files fs).2 = false := by
  cases dryRun with
  | true =>
    rw [removeFiles_dry]
    cases referent <;> simp [prompted]
  | false =>
    rw [removeFiles_real]
    cases referent <;> simp [prompted]

theorem osStat_foldl_osRemove_of_not_mem (files : List Path) (p : Path) :
    ∀ fs : FileSystem, p ∉ files →
      osStat (files.foldl osRemove fs) p = osStat fs p := by
  induction files with
  | nil => intro fs _; rfl
  | cons f rest ih =>
    intro fs h
    simp only [List.foldl_cons]
    rw [ih _ (fun hm => h (List.mem_cons_of_mem _ hm))]
    exact osStat_osRemove_ne fs p f (fun he => h (he ▸ List.mem_cons_self _ _))

theorem osStat_foldl_osRemove_of_none (files : List Path) (p : Path) :
    ∀ fs : FileSystem, osStat fs p = none →
      osStat (files.foldl osRemove fs) p = none := by
  induction files with
  | nil => intro fs h; exact h
  | cons f rest ih =>
    intro fs h
    simp only [List.foldl_cons]
    apply ih
    by_cases he : p = f
    · subst he; exact osStat_osRemove_self fs p
    · rw [osStat_osRemove_ne fs p f he]; exact h

theorem osStat_foldl_osRemove_of_mem (files : List Path) (p : Path) :
    ∀ fs : FileSystem, p ∈ files →
      osStat (files.foldl osRemove fs) p = none := by
  induction files with
  | nil => intro fs h; simp at h
  | cons f rest ih =>
    intro fs h
    simp only [List.foldl_cons]
    by_cases he : p = f
    · subst he
      exact osStat_foldl_osRemove_of_none rest p _ (osStat_osRemove_self fs p)
    · rcases List.mem_cons.1 h with h1 | h1
      · exact absurd h1 he
      · exact ih _ h1

/-! ## The newest and oldest policies -/

theorem processBucket_newest (srt : Sorter) (dryRun : Bool) (referentHashes : HashMap)
    (hash : String) (files : List Path) (fs : FileSystem) (stdin : List String)
    (href : hasKey referentHashes hash = false) (hlen : 2 ≤ files.length) :
    processBucket srt ⟨dryRun, "newest"⟩ referentHashes hash files fs stdin
      = match srt (lessNewest fs) files with
        | none => ⟨fs, stdin, [], true⟩
        | some sorted =>
          ⟨(removeFiles dryRun false (sorted.drop 1) fs).1, stdin,
           (removeFiles dryRun false (sorted.drop 1) fs).2, false⟩ := by
  have h1 : ¬ files.length ≤ 1 := by omega
  unfold processBucket chooseToRemove
  simp only [href, h1, if_false, if_true, Bool.false_eq_true]
  cases srt (lessNewest fs) files <;> simp

theorem processBucket_oldest (srt : Sorter) (dryRun : Bool) (referentHashes : HashMap)
    (hash : String) (files : List Path) (fs : FileSystem) (stdin : List String)
    (href : hasKey referentHashes hash = false) (hlen : 2 ≤ files.length) :
    processBucket srt ⟨dryRun, "oldest"⟩ referentHashes hash files fs stdin
      = match srt (lessOldest fs) files with
        | none => ⟨fs, stdin, [], true⟩
        | some sorted =>
          ⟨(removeFiles dryRun false (sorted.drop 1) fs).1, stdin,
           (removeFiles dryRun false (sorted.drop 1) fs).2, false⟩ := by
  have h1 : ¬ files.length ≤ 1 := by omega
  have h2 : ¬ ("oldest" = "newest") := by decide
  unfold processBucket chooseToRemove
  simp only [href, h1, h2, if_false, if_true, Bool.false_eq_true]
  cases srt (lessOldest fs) files <;> simp

theorem sort_head (srt : Sorter) (hs : SortSliceContract srt) (less : Less)
    (files : List Path) (hne : files ≠ [])
    (tot : ∀ a ∈ files, ∀ b ∈ files, less a b ≠ none)
    (asym : ∀ a ∈ files, ∀ b ∈ files, less a b = some true → less b a = some false)
    (ntr : ∀ a ∈ files, ∀ b ∈ files, ∀ c ∈ files,
      less a b = some false → less b c = some false → less a c = some false) :
    ∃ m rest, srt less files = some (m :: rest) ∧ (m :: rest).Perm files ∧
      ∀ p ∈ rest, less p m = some false := by
  have h1 := hs.returns less files tot
  cases hr : srt less files with
  | none => simp [hr] at h1
  | some r =>
    have hp := hs.perm less files r hr
    have hsorted := hs.sorted less files r tot asym ntr hr
    cases r with
    | nil => exact absurd hp.symm.eq_nil hne
    | cons m rest =>
      exact ⟨m, rest, rfl, hp, (List.pairwise_cons.1 hsorted).1⟩

theorem lessNewest_of_stat (fs : FileSystem) (a b : Path) (ta tb : ModTime)
    (ha : osStat fs a = some ta) (hb : osStat fs b = some tb) :
    lessNewest fs a b = some (decide (tb < ta)) := by
  simp [lessNewest, ha, hb]

theorem lessOldest_of_stat (fs : FileSystem) (a b : Path) (ta tb : ModTime)
    (ha : osStat fs a = some ta) (hb : osStat fs b = some tb) :
    lessOldest fs a b = some (decide (ta < tb)) := by
  simp [lessOldest, ha, hb]

theorem stat_some (fs : FileSystem) (files : List Path)
    (hstat : ∀ p ∈ files, osStat fs p ≠ none) (a : Path) (ha : a ∈ files) :
    ∃ ta, osStat fs a = some ta := by
  cases h : osStat fs a with
  | none => exact absurd h (hstat a ha)
  | some t => exact ⟨t, rfl⟩

theorem sort_newest (srt : Sorter) (hs : SortSliceContract srt) (fs : FileSystem)
    (files : List Path) (hne : files ≠ [])
    (hstat : ∀ p ∈ files, osStat fs p ≠ none) :
    ∃ m rest, srt (lessNewest fs) files = some (m :: rest) ∧ (m :: rest).Perm files ∧
      ∀ p ∈ rest, ∃ tp tm, osStat fs p = some tp ∧ osStat fs m = some tm ∧ tp ≤ tm := by
  obtain ⟨m, rest, h1, h2, h3⟩ := sort_head srt hs (lessNewest fs) files hne
    (by
      intro a ha b hb
      obtain ⟨ta, hta⟩ := stat_some fs files hstat a ha
      obtain ⟨tb, htb⟩ := stat_some fs files hstat b hb
      simp [lessNewest_of_stat fs a b ta tb hta htb])
    (by
      intro a ha b hb
      obtain ⟨ta, hta⟩ := stat_some fs files hstat a ha
      obtain ⟨tb, htb⟩ := stat_some fs files hstat b hb
      rw [lessNewest_of_stat fs a b ta tb hta htb, lessNewest_of_stat fs b a tb ta htb hta]
      simp only [Option.some.injEq, decide_eq_true_eq, decide_eq_false_iff_not]
      intro h; exact lt_asymm h)
    (by
      intro a ha b hb c hc
      obtain ⟨ta, hta⟩ := stat_some fs files hstat a ha
      obtain ⟨tb, htb⟩ := stat_some fs files hstat b hb
      obtain ⟨tc, htc⟩ := stat_some fs files hstat c hc
      rw [lessNewest_of_stat fs a b ta tb hta htb, lessNewest_of_stat fs b c tb tc htb htc,
        lessNewest_of_stat fs a c ta tc hta htc]
      simp only [Option.some.injEq, decide_eq_false_iff_not]
      intro h1 h2; exact not_lt.2 (le_trans (not_lt.1 h1) (not_lt.1 h2)))
  refine ⟨m, rest, h1, h2, ?_⟩
  intro p hp
  obtain ⟨tp, htp⟩ := stat_some fs files hstat p (h2.subset (List.mem_cons_of_mem _ hp))
  obtain ⟨tm, htm⟩ := stat_some fs files hstat m (h2.subset (List.mem_cons_self _ _))
  have h4 := h3 p hp
  rw [lessNewest_of_stat fs p m tp tm htp htm] at h4
  simp only [Option.some.injEq, decide_eq_false_iff_not] at h4
  exact ⟨tp, tm, htp, htm, not_lt.1 h4⟩

theorem sort_oldest (srt : Sorter) (hs : SortSliceContract srt) (fs : FileSystem)
    (files : List Path) (hne : files ≠ [])
    (hstat : ∀ p ∈ files, osStat fs p ≠ none) :
    ∃ m rest, srt (lessOldest fs) files = some (m :: rest) ∧ (m :: rest).Perm files ∧
      ∀ p ∈ rest, ∃ tp tm, osStat fs p = some tp ∧ osStat fs m = some tm ∧ tm ≤ tp := by
  obtain ⟨m, rest, h1, h2, h3⟩ := sort_head srt hs (lessOldest fs) files hne
    (by
      intro a ha b hb
      obtain ⟨ta, hta⟩ := stat_some fs files hstat a ha
      obtain ⟨tb, htb⟩ := stat_some fs files hstat b hb
      simp [lessOldest_of_stat fs a b ta tb hta htb])
    (by
      intro a ha b hb
      obtain ⟨ta, hta⟩ := stat_some fs files hstat a ha
      obtain ⟨tb, htb⟩ := stat_some fs files hstat b hb
      rw [lessOldest_of_stat fs a b ta tb hta htb, lessOldest_of_stat fs b a tb ta htb hta]
      simp only [Option.some.injEq, decide_eq_true_eq, decide_eq_false_iff_not]
      intro h; exact lt_asymm h)
    (by
      intro a ha b hb c hc
      obtain ⟨ta, hta⟩ := stat_some fs files hstat a ha
      obtain ⟨tb, htb⟩ := stat_some fs files hstat b hb
      obtain ⟨tc, htc⟩ := stat_some fs files hstat c hc
      rw [lessOldest_of_stat fs a b ta tb hta htb, lessOldest_of_stat fs b c tb tc htb htc,
        lessOldest_of_stat fs a c ta tc hta htc]
      simp only [Option.some.injEq, decide_eq_false_iff_not]
      intro h1 h2; exact not_lt.2 (le_trans (not_lt.1 h2) (not_lt.1 h1)))
  refine ⟨m, rest, h1, h2, ?_⟩
  intro p hp
  obtain ⟨tp, htp⟩ := stat_some fs files hstat p (h2.subset (List.mem_cons_of_mem _ hp))
  obtain ⟨tm, htm⟩ := stat_some fs files hstat m (h2.subset (List.mem_cons_self _ _))
  have h4 := h3 p hp
  rw [lessOldest_of_stat fs p m tp tm htp htm] at h4
  simp only [Option.some.injEq, decide_eq_false_iff_not] at h4
  exact ⟨tp, tm, htp, htm, not_lt.1 h4⟩

theorem filter_ne_head (m : Path) (rest files : List Path)
    (hp : (m :: rest).Perm files) (hm : ∀ p ∈ rest, p ≠ m) :
    rest.Perm (files.filter (fun p => p != m)) := by
  have h1 := hp.filter (fun p => p != m)
  have h2 : (m :: rest).filter (fun p => p != m) = rest := by
    rw [List.filter_cons]
    simp only [bne_self_eq_false, Bool.false_eq_true, if_false]
    rw [List.filter_eq_self]
    intro a ha
    simpa using hm a ha
  rw [h2] at h1
  exact h1

theorem lessNewest_total (fs : FileSystem) (files : List Path)
    (hstat : ∀ p ∈ files, osStat fs p ≠ none) :
    ∀ a ∈ files, ∀ b ∈ files, lessNewest fs a b ≠ none := by
  intro a ha b hb
  obtain ⟨ta, hta⟩ := stat_some fs files hstat a ha
  obtain ⟨tb, htb⟩ := stat_some fs files hstat b hb
  simp [lessNewest_of_stat fs a b ta tb hta htb]

theorem lessOldest_total (fs : FileSystem) (files : List Path)
    (hstat : ∀ p ∈ files, osStat fs p ≠ none) :
    ∀ a ∈ files, ∀ b ∈ files, lessOldest fs a b ≠ none := by
  intro a ha b hb
  obtain ⟨ta, hta⟩ := stat_some fs files hstat a ha
  obtain ⟨tb, htb⟩ := stat_some fs files hstat b hb
  simp [lessOldest_of_stat fs a b ta tb hta htb]

/-- A bucket of distinct paths ordered by any comparator keeps its first path. -/
theorem survivor_core (srt : Sorter) (hs : SortSliceContract srt) (less : Less)
    (dryRun : Bool) (files : List Path) (fs : FileSystem) (stdin : List String)
    (hne : files ≠ []) (hnd : files.Nodup) (r : Result)
    (hr : r = match srt less files with
        | none => ⟨fs, stdin, [], true⟩
        | some sorted =>
          ⟨(removeFiles dryRun false (sorted.drop 1) fs).1, stdin,
           (removeFiles dryRun false (sorted.drop 1) fs).2, false⟩) :
    ∃ s ∈ files, s ∉ plannedPaths r.out ∧
      ((∀ a ∈ files, ∀ b ∈ files, less a b ≠ none) →
        r.crashed = false ∧ (plannedPaths r.out).Perm (files.erase s)) := by
  cases hsrt : srt less files with
  | none =>
    rw [hsrt] at hr
    subst hr
    obtain ⟨s, hsmem⟩ := List.exists_mem_of_ne_nil files hne
    refine ⟨s, hsmem, by simp [plannedPaths, wouldRemovePaths, removingPaths], ?_⟩
    intro htot
    have := hs.returns less files htot
    simp [hsrt] at this
  | some sorted =>
    rw [hsrt] at hr
    subst hr
    have hp := hs.perm less files sorted hsrt
    cases sorted with
    | nil => exact absurd hp.symm.eq_nil hne
    | cons m rest =>
      have hnd2 : (m :: rest).Nodup := hp.nodup_iff.2 hnd
      have hm : m ∉ rest := (List.nodup_cons.1 hnd2).1
      simp only [List.drop_succ_cons, List.drop_zero]
      rw [plannedPaths_removeFiles]
      refine ⟨m, hp.subset (List.mem_cons_self _ _), hm, ?_⟩
      intro _
      refine ⟨trivial, ?_⟩
      have := hp.erase m
      rwa [List.erase_cons_head] at this

/-- Claim C1: a bucket without referent match that holds at least two paths,
all with readable and pairwise distinct modification times, is resolved so
that under "newest" the planned paths are the paths of the bucket other than
the one with the latest modification time, and under "oldest" the paths other
than the one with the earliest modification time. -/
theorem C1_policy_plan (srt : Sorter) (hs : SortSliceContract srt) (dryRun : Bool)
    (referentHashes : HashMap) (hash : String) (files : List Path)
    (fs : FileSystem) (stdin : List String)
    (href : hasKey referentHashes hash = false) (hlen : 2 ≤ files.length)
    (hstat : ∀ p ∈ files, osStat fs p ≠ none)
    (hdist : files.Pairwise (fun a b => osStat fs a ≠ osStat fs b)) :
    (∃ m, Latest fs files m ∧
      (processBucket srt ⟨dryRun, "newest"⟩ referentHashes hash files fs stdin).crashed
        = false ∧
      (plannedPaths
        (processBucket srt ⟨dryRun, "newest"⟩ referentHashes hash files fs stdin).out).Perm
        (files.filter (fun p => p != m))) ∧
    (∃ m, Earliest fs files m ∧
      (processBucket srt ⟨dryRun, "oldest"⟩ referentHashes hash files fs stdin).crashed
        = false ∧
      (plannedPaths
        (processBucket srt ⟨dryRun, "oldest"⟩ referentHashes hash files fs stdin).out).Perm
        (files.filter (fun p => p != m))) := by
  have hne : files ≠ [] := by
    intro h; subst h; simp at hlen
  have hsym : ∀ {x y : Path}, osStat fs x ≠ osStat fs y → osStat fs y ≠ osStat fs x :=
    fun h => h.symm
  constructor
  · obtain ⟨m, rest, h1, h2, h3⟩ := sort_newest srt hs fs files hne hstat
    have hd := (List.Perm.pairwise_iff hsym h2).2 hdist
    have hdm := (List.pairwise_cons.1 hd).1
    have hneq : ∀ p ∈ rest, p ≠ m := by
      intro p hp he
      subst he
      exact hdm p hp rfl
    refine ⟨m, ⟨h2.subset (List.mem_cons_self _ _), ?_⟩, ?_, ?_⟩
    · obtain ⟨tm, htm⟩ := stat_some fs files hstat m (h2.subset (List.mem_cons_self _ _))
      refine ⟨tm, htm, ?_⟩
      intro p hp hpm
      have hp2 : p ∈ rest := by
        rcases List.mem_cons.1 (h2.symm.subset hp) with h | h
        · exact absurd h hpm
        · exact h
      obtain ⟨tp, tm2, htp, htm2, hle⟩ := h3 p hp2
      rw [htm] at htm2
      cases htm2
      refine ⟨tp, htp, lt_of_le_of_ne hle ?_⟩
      intro he
      apply hdm p hp2
      rw [htm, htp, he]
    · rw [processBucket_newest srt dryRun referentHashes hash files fs stdin href hlen, h1]
    · rw [processBucket_newest srt dryRun referentHashes hash files fs stdin href hlen, h1]
      simp only [List.drop_succ_cons, List.drop_zero]
      rw [plannedPaths_removeFiles]
      exact filter_ne_head m rest files h2 hneq
  · obtain ⟨m, rest, h1, h2, h3⟩ := sort_oldest srt hs fs files hne hstat
    have hd := (List.Perm.pairwise_iff hsym h2).2 hdist
    have hdm := (List.pairwise_cons.1 hd).1
    have hneq : ∀ p ∈ rest, p ≠ m := by
      intro p hp he
      subst he
      exact hdm p hp rfl
    refine ⟨m, ⟨h2.subset (List.mem_cons_self _ _), ?_⟩, ?_, ?_⟩
    · obtain ⟨tm, htm⟩ := stat_some fs files hstat m (h2.subset (List.mem_cons_self _ _))
      refine ⟨tm, htm, ?_⟩
      intro p hp hpm
      have hp2 : p ∈ rest := by
        rcases List.mem_cons.1 (h2.symm.subset hp) with h | h
        · exact absurd h hpm
        · exact h
      obtain ⟨tp, tm2, htp, htm2, hle⟩ := h3 p hp2
      rw [htm] at htm2
      cases htm2
      refine ⟨tp, htp, lt_of_le_of_ne hle ?_⟩
      intro he
      apply hdm p hp2
      rw [htm, htp, he]
    · rw [processBucket_oldest srt dryRun referentHashes hash files fs stdin href hlen, h1]
    · rw [processBucket_oldest srt dryRun referentHashes hash files fs stdin href hlen, h1]
      simp only [List.drop_succ_cons, List.drop_zero]
      rw [plannedPaths_removeFiles]
      exact filter_ne_head m rest files h2 hneq

/-- Three files modified at 1, 3 and 2: under "newest" the file modified at 3
survives, under "oldest" the file modified at 1. -/
theorem C1_policy_plan_witness :
    (2 ≤ ["a", "b", "c"].length ∧
      ∀ p ∈ ["a", "b", "c"], osStat ⟨[("a", 1), ("b", 3), ("c", 2)]⟩ p ≠ none) ∧
    ((∃ m, Latest ⟨[("a", 1), ("b", 3), ("c", 2)]⟩ ["a", "b", "c"] m ∧
      (processBucket insertionSort ⟨false, "newest"⟩ [] "h" ["a", "b", "c"]
        ⟨[("a", 1), ("b", 3), ("c", 2)]⟩ []).crashed = false ∧
      (plannedPaths
        (processBucket insertionSort ⟨false, "newest"⟩ [] "h" ["a", "b", "c"]
          ⟨[("a", 1), ("b", 3), ("c", 2)]⟩ []).out).Perm
        (["a", "b", "c"].filter (fun p => p != m))) ∧
    (∃ m, Earliest ⟨[("a", 1), ("b", 3), ("c", 2)]⟩ ["a", "b", "c"] m ∧
      (processBucket insertionSort ⟨false, "oldest"⟩ [] "h" ["a", "b", "c"]
        ⟨[("a", 1), ("b", 3), ("c", 2)]⟩ []).crashed = false ∧
      (plannedPaths
        (processBucket insertionSort ⟨false, "oldest"⟩ [] "h" ["a", "b", "c"]
          ⟨[("a", 1), ("b", 3), ("c", 2)]⟩ []).out).Perm
        (["a", "b", "c"].filter (fun p => p != m)))) ∧
    plannedPaths (processBucket insertionSort ⟨false, "newest"⟩ [] "h" ["a", "b", "c"]
      ⟨[("a", 1), ("b", 3), ("c", 2)]⟩ []).out = ["c", "a"] ∧
    plannedPaths (processBucket insertionSort ⟨false, "oldest"⟩ [] "h" ["a", "b", "c"]
      ⟨[("a", 1), ("b", 3), ("c", 2)]⟩ []).out = ["c", "b"] :=
  ⟨⟨by decide, by decide⟩,
   C1_policy_plan insertionSort insertionSort_contract false [] "h" ["a", "b", "c"]
     ⟨[("a", 1), ("b", 3), ("c", 2)]⟩ [] (by decide) (by decide) (by decide) (by decide),
   by decide, by decide⟩

/-! ## Referent match and small buckets -/

theorem removeDuplicates_cons (srt : Sorter) (cfg : Config) (referentHashes : HashMap)
    (hash : String) (files : List Path) (rest : HashMap) (fs : FileSystem)
    (stdin : List String) :
    removeDuplicates srt cfg referentHashes ((hash, files) :: rest) fs stdin
      = if (processBucket srt cfg referentHashes hash files fs stdin).crashed = true then
          processBucket srt cfg referentHashes hash files fs stdin
        else
          ⟨(removeDuplicates srt cfg referentHashes rest
              (processBucket srt cfg referentHashes hash files fs stdin).fs
              (processBucket srt cfg referentHashes hash files fs stdin).stdin).fs,
           (removeDuplicates srt cfg referentHashes rest
              (processBucket srt cfg referentHashes hash files fs stdin).fs
              (processBucket srt cfg referentHashes hash files fs stdin).stdin).stdin,
           (processBucket srt cfg referentHashes hash files fs stdin).out ++
             (removeDuplicates srt cfg referentHashes rest
              (processBucket srt cfg referentHashes hash files fs stdin).fs
              (processBucket srt cfg referentHashes hash files fs stdin).stdin).out,
           (removeDuplicates srt cfg referentHashes rest
              (processBucket srt cfg referentHashes hash files fs stdin).fs
              (processBucket srt cfg referentHashes hash files fs stdin).stdin).crashed⟩ := by
  rfl

theorem processBucket_referent (srt : Sorter) (cfg : Config) (referentHashes : HashMap)
    (hash : String) (files : List Path) (fs : FileSystem) (stdin : List String)
    (href : hasKey referentHashes hash = true) :
    processBucket srt cfg referentHashes hash files fs stdin
      = ⟨(removeFiles cfg.dryRun true files fs).1, stdin,
         (removeFiles cfg.dryRun true files fs).2, false⟩ := by
  unfold processBucket
  simp [href]

theorem plannedPaths_append_left (a b : List Event) (p : Path)
    (h : p ∈ plannedPaths a) : p ∈ plannedPaths (a ++ b) := by
  unfold plannedPaths at h ⊢
  rw [wouldRemovePaths_append, removingPaths_append]
  simp only [List.mem_append] at h ⊢
  tauto

theorem plannedPaths_append_right (a b : List Event) (p : Path)
    (h : p ∈ plannedPaths b) : p ∈ plannedPaths (a ++ b) := by
  unfold plannedPaths at h ⊢
  rw [wouldRemovePaths_append, removingPaths_append]
  simp only [List.mem_append] at h ⊢
  tauto

theorem removeDuplicates_referent (srt : Sorter) (cfg : Config)
    (referentHashes fileHashes : HashMap) :
    ∀ (fs : FileSystem) (stdin : List String),
      (removeDuplicates srt cfg referentHashes fileHashes fs stdin).crashed = false →
      ∀ b ∈ fileHashes, hasKey referentHashes b.1 = true → ∀ p ∈ b.2,
        p ∈ plannedPaths (removeDuplicates srt cfg referentHashes fileHashes fs stdin).out := by
  induction fileHashes with
  | nil => intro fs stdin _ b hb; simp at hb
  | cons b0 rest ih =>
    intro fs stdin hc b hb href p hp
    obtain ⟨hash, files⟩ := b0
    rw [removeDuplicates_cons] at hc ⊢
    by_cases hcr : (processBucket srt cfg referentHashes hash files fs stdin).crashed = true
    · rw [if_pos hcr] at hc
      rw [hcr] at hc
      cases hc
    · rw [if_neg hcr] at hc ⊢
      simp only at hc ⊢
      rcases List.mem_cons.1 hb with h | h
      · subst h
        apply plannedPaths_append_left
        rw [processBucket_referent srt cfg referentHashes hash files fs stdin href]
        simp only
        rw [plannedPaths_removeFiles]
        exact hp
      · exact plannedPaths_append_right _ _ p (ih _ _ hc b h href p hp)

/-- Claim C2: a bucket whose digest is a key of `referentHashes` has every one
of its paths planned for removal, in bucket order, whatever `removeBy` is and
however many paths it holds; nothing is sorted, no prompt is printed, no input
is read, and the outcome is the same for every `removeBy` and sorting
routine.  In a run of `removeDuplicates` that completes, every path of such a
bucket of `fileHashes` is among the planned paths. -/
theorem C2_referent_match (srt : Sorter) (cfg : Config) (referentHashes : HashMap)
    (hash : String) (files : List Path) (fs : FileSystem) (stdin : List String)
    (href : hasKey referentHashes hash = true) :
    (processBucket srt cfg referentHashes hash files fs stdin).crashed = false ∧
    plannedPaths (processBucket srt cfg referentHashes hash files fs stdin).out = files ∧
    prompted (processBucket srt cfg referentHashes hash files fs stdin).out = false ∧
    (processBucket srt cfg referentHashes hash files fs stdin).stdin = stdin ∧
    (cfg.dryRun = true →
      (processBucket srt cfg referentHashes hash files fs stdin).fs = fs ∧
      wouldRemovePaths (processBucket srt cfg referentHashes hash files fs stdin).out
        = files) ∧
    (cfg.dryRun = false →
      removingPaths (processBucket srt cfg referentHashes hash files fs stdin).out = files ∧
      ∀ p ∈ files,
        osStat (processBucket srt cfg referentHashes hash files fs stdin).fs p = none) ∧
    (∀ (srt2 : Sorter) (removeBy2 : String),
      processBucket srt2 ⟨cfg.dryRun, removeBy2⟩ referentHashes hash files fs stdin
        = processBucket srt cfg referentHashes hash files fs stdin) ∧
    (∀ (fileHashes : HashMap) (fs2 : FileSystem) (stdin2 : List String),
      (hash, files) ∈ fileHashes →
      (removeDuplicates srt cfg referentHashes fileHashes fs2 stdin2).crashed = false →
      ∀ p ∈ files,
        p ∈ plannedPaths
          (removeDuplicates srt cfg referentHashes fileHashes fs2 stdin2).out) := by
  have hpb := fun (s2 : Sorter) (c2 : Config) =>
    processBucket_referent s2 c2 referentHashes hash files fs stdin href
  rw [hpb srt cfg]
  refine ⟨rfl, plannedPaths_removeFiles _ _ _ _, prompted_removeFiles _ _ _ _, rfl,
    ?_, ?_, ?_, ?_⟩
  · intro hd
    simp only [hd]
    refine ⟨by rw [removeFiles_dry], ?_⟩
    simpa using (paths_removeFiles true true files fs).1
  · intro hd
    simp only [hd]
    refine ⟨by simpa using (paths_removeFiles false true files fs).2, ?_⟩
    intro p hp
    rw [removeFiles_real]
    exact osStat_foldl_osRemove_of_mem files p fs hp
  · intro srt2 removeBy2
    rw [hpb srt2 ⟨cfg.dryRun, removeBy2⟩]
  · intro fileHashes fs2 stdin2 hmem hc p hp
    exact removeDuplicates_referent srt cfg referentHashes fileHashes fs2 stdin2 hc
      (hash, files) hmem href p hp

/-- A single source file whose digest matches a referent is removed under the
"oldest" policy. -/
theorem C2_referent_match_witness :
    hasKey [("h", ["ref/g1"])] "h" = true ∧
    plannedPaths (processBucket insertionSort ⟨false, "oldest"⟩ [("h", ["ref/g1"])] "h"
      ["src/f1"] ⟨[("src/f1", 5), ("ref/g1", 4)]⟩ []).out = ["src/f1"] ∧
    (processBucket insertionSort ⟨false, "oldest"⟩ [("h", ["ref/g1"])] "h"
      ["src/f1"] ⟨[("src/f1", 5), ("ref/g1", 4)]⟩ []).fs = ⟨[("ref/g1", 4)]⟩ :=
  ⟨by decide,
   (C2_referent_match insertionSort ⟨false, "oldest"⟩ [("h", ["ref/g1"])] "h"
     ["src/f1"] ⟨[("src/f1", 5), ("ref/g1", 4)]⟩ [] (by decide)).2.1,
   by decide⟩

theorem processBucket_small (srt : Sorter) (cfg : Config)
    (referentHashes : HashMap) (hash : String) (files : List Path)
    (fs : FileSystem) (stdin : List String)
    (href : hasKey referentHashes hash = false) (hlen : files.length ≤ 1) :
    processBucket srt cfg referentHashes hash files fs stdin = ⟨fs, stdin, [], false⟩ := by
  unfold processBucket
  simp [href, hlen]

/-- Claim C10: a bucket without referent match that holds at most one path is
skipped, whatever `removeBy` is: nothing is planned for removal, no prompt is
printed, and the file system and standard input are left as they were. -/
theorem C10_small_bucket_skipped (srt : Sorter) (cfg : Config)
    (referentHashes : HashMap) (hash : String) (files : List Path)
    (fs : FileSystem) (stdin : List String)
    (href : hasKey referentHashes hash = false) (hlen : files.length ≤ 1) :
    processBucket srt cfg referentHashes hash files fs stdin = ⟨fs, stdin, [], false⟩ ∧
    plannedPaths (processBucket srt cfg referentHashes hash files fs stdin).out = [] ∧
    prompted (processBucket srt cfg referentHashes hash files fs stdin).out = false := by
  rw [processBucket_small srt cfg referentHashes hash files fs stdin href hlen]
  exact ⟨rfl, rfl, rfl⟩

/-- A bucket of one path under the interactive policy: no prompt, no removal. -/
theorem C10_small_bucket_skipped_witness :
    hasKey [] "h" = false ∧ ["only"].length ≤ 1 ∧
    processBucket insertionSort ⟨false, "interactive"⟩ [] "h" ["only"]
      ⟨[("only", 7)]⟩ ["a"] = ⟨⟨[("only", 7)]⟩, ["a"], [], false⟩ :=
  ⟨by decide, by decide,
   (C10_small_bucket_skipped insertionSort ⟨false, "interactive"⟩ [] "h" ["only"]
     ⟨[("only", 7)]⟩ ["a"] (by decide) (by decide)).1⟩

/-! ## Survivors -/

/-- Claim C3 fails on a bucket that lists the same path twice, as `hashFiles`
builds when the same file is collected twice: the only path of the bucket is
planned for removal and the file is gone after the run. -/
theorem C3_counterexample :
    hashFiles sampleHash 1 ["f3", "f3"] [0, 0, 0, 0] = some [("3cff", ["f3", "f3"])] ∧
    hasKey [] "3cff" = false ∧ ["f3", "f3"] ≠ [] ∧
    (∀ s ∈ ["f3", "f3"],
      s ∈ plannedPaths (processBucket insertionSort ⟨false, "newest"⟩ [] "3cff"
        ["f3", "f3"] ⟨[("f3", 1)]⟩ []).out) ∧
    removeDuplicates insertionSort ⟨false, "newest"⟩ [] [("3cff", ["f3", "f3"])]
        ⟨[("f3", 1)]⟩ []
      = ⟨⟨[]⟩, [], [Event.removing "f3"], false⟩ ∧
    (∀ s ∈ ["f3", "f3"],
      s ∈ plannedPaths (processBucket insertionSort ⟨true, "oldest"⟩ [] "3cff"
        ["f3", "f3"] ⟨[("f3", 1)]⟩ []).out) := by
  decide

/-- Claim C3, amended: in a non-empty bucket whose paths are pairwise distinct
strings and whose digest has no referent match, under "newest" or "oldest"
some path of the bucket is not among the paths planned for removal, ties or
not; when the metadata of every path is readable the bucket is resolved and
the planned paths are all the paths of the bucket but that one. -/
theorem C3_survivor (srt : Sorter) (hs : SortSliceContract srt) (dryRun : Bool)
    (removeBy : String) (referentHashes : HashMap) (hash : String)
    (files : List Path) (fs : FileSystem) (stdin : List String)
    (hby : removeBy = "newest" ∨ removeBy = "oldest")
    (href : hasKey referentHashes hash = false)
    (hne : files ≠ []) (hnd : files.Nodup) :
    ∃ s ∈ files,
      s ∉ plannedPaths
        (processBucket srt ⟨dryRun, removeBy⟩ referentHashes hash files fs stdin).out ∧
      ((∀ p ∈ files, osStat fs p ≠ none) →
        (processBucket srt ⟨dryRun, removeBy⟩ referentHashes hash files fs stdin).crashed
          = false ∧
        (plannedPaths
          (processBucket srt ⟨dryRun, removeBy⟩ referentHashes hash files fs stdin).out).Perm
          (files.erase s)) := by
  by_cases hlen : files.length ≤ 1
  · rw [processBucket_small srt ⟨dryRun, removeBy⟩ referentHashes hash files
      fs stdin href hlen]
    cases files with
    | nil => exact absurd rfl hne
    | cons f rest =>
      cases rest with
      | nil =>
        exact ⟨f, List.mem_cons_self _ _, by simp [plannedPaths, wouldRemovePaths,
          removingPaths], fun _ => ⟨rfl, by simp [plannedPaths, wouldRemovePaths,
          removingPaths]⟩⟩
      | cons g rest2 => simp at hlen
  · have hlen2 : 2 ≤ files.length := by omega
    rcases hby with hby | hby
    · subst hby
      obtain ⟨s, h1, h2, h4⟩ := survivor_core srt hs (lessNewest fs) dryRun files fs
        stdin hne hnd _
        (processBucket_newest srt dryRun referentHashes hash files fs stdin href hlen2)
      exact ⟨s, h1, h2, fun hstat => h4 (lessNewest_total fs files hstat)⟩
    · subst hby
      obtain ⟨s, h1, h2, h4⟩ := survivor_core srt hs (lessOldest fs) dryRun files fs
        stdin hne hnd _
        (processBucket_oldest srt dryRun referentHashes hash files fs stdin href hlen2)
      exact ⟨s, h1, h2, fun hstat => h4 (lessOldest_total fs files hstat)⟩

/-- Two copies modified at the same instant: one of them is not planned. -/
theorem C3_survivor_witness :
    (["x", "y"] ≠ [] ∧ ["x", "y"].Nodup) ∧
    (∃ s ∈ ["x", "y"],
      s ∉ plannedPaths
        (processBucket insertionSort ⟨false, "newest"⟩ [] "h" ["x", "y"]
          ⟨[("x", 4), ("y", 4)]⟩ []).out ∧
      ((∀ p ∈ ["x", "y"], osStat ⟨[("x", 4), ("y", 4)]⟩ p ≠ none) →
        (processBucket insertionSort ⟨false, "newest"⟩ [] "h" ["x", "y"]
          ⟨[("x", 4), ("y", 4)]⟩ []).crashed = false ∧
        (plannedPaths
          (processBucket insertionSort ⟨false, "newest"⟩ [] "h" ["x", "y"]
            ⟨[("x", 4), ("y", 4)]⟩ []).out).Perm
          (["x", "y"].erase s))) ∧
    plannedPaths (processBucket insertionSort ⟨false, "newest"⟩ [] "h" ["x", "y"]
      ⟨[("x", 4), ("y", 4)]⟩ []).out = ["y"] :=
  ⟨⟨by decide, by decide⟩,
   C3_survivor insertionSort insertionSort_contract false "newest" [] "h" ["x", "y"]
     ⟨[("x", 4), ("y", 4)]⟩ [] (Or.inl rfl) (by decide) (by decide) (by decide),
   by decide⟩

/-! ## Unreadable metadata, and which copy "newest" keeps -/

/-- Claim C7 fails on the code: with one path of a bucket unreadable the first
comparison dereferences the missing `FileInfo`; the run stops there, the
bucket is not resolved and the bucket after it is never visited. -/
theorem C7_unreadable_crash :
    osStat ⟨[("a", 1), ("c", 1), ("d", 2)]⟩ "b" = none ∧
    removeDuplicates insertionSort ⟨false, "newest"⟩ []
      [("h1", ["a", "b"]), ("h2", ["c", "d"])] ⟨[("a", 1), ("c", 1), ("d", 2)]⟩ []
      = ⟨⟨[("a", 1), ("c", 1), ("d", 2)]⟩, [], [], true⟩ ∧
    removeDuplicates insertionSort ⟨false, "oldest"⟩ []
      [("h1", ["a", "b"]), ("h2", ["c", "d"])] ⟨[("a", 1), ("c", 1), ("d", 2)]⟩ []
      = ⟨⟨[("a", 1), ("c", 1), ("d", 2)]⟩, [], [], true⟩ ∧
    removeDuplicates insertionSort ⟨false, "newest"⟩ []
      [("h2", ["c", "d"])] ⟨[("a", 1), ("c", 1), ("d", 2)]⟩ []
      = ⟨⟨[("a", 1), ("d", 2)]⟩, [], [Event.removing "c"], false⟩ := by
  decide

/-- Claim C8 fails: of two duplicates modified at 1 and 2, under "newest" the
older one is planned for removal and the newest one is not. -/
theorem C8_newest_is_kept :
    osStat ⟨[("file1.txt", 1), ("file2.txt", 2)]⟩ "file1.txt" = some 1 ∧
    osStat ⟨[("file1.txt", 1), ("file2.txt", 2)]⟩ "file2.txt" = some 2 ∧
    plannedPaths (removeDuplicates insertionSort ⟨true, "newest"⟩ []
      [("h", ["file1.txt", "file2.txt"])]
      ⟨[("file1.txt", 1), ("file2.txt", 2)]⟩ []).out = ["file1.txt"] ∧
    removeDuplicates insertionSort ⟨false, "newest"⟩ []
      [("h", ["file1.txt", "file2.txt"])]
      ⟨[("file1.txt", 1), ("file2.txt", 2)]⟩ []
      = ⟨⟨[("file2.txt", 2)]⟩, [], [Event.removing "file1.txt"], false⟩ := by
  decide

/-- Claim C8, amended: under "newest", in a bucket of duplicates without
referent match whose metadata is all readable, one entry with the latest
modification time is not planned for removal and the planned paths are all
the other entries of the bucket. -/
theorem C8_newest_survives (srt : Sorter) (hs : SortSliceContract srt) (dryRun : Bool)
    (referentHashes : HashMap) (hash : String) (files : List Path)
    (fs : FileSystem) (stdin : List String)
    (href : hasKey referentHashes hash = false) (hne : files ≠ [])
    (hstat : ∀ p ∈ files, osStat fs p ≠ none) :
    ∃ m ∈ files,
      (∀ p ∈ files, ∃ tp tm, osStat fs p = some tp ∧ osStat fs m = some tm ∧ tp ≤ tm) ∧
      (processBucket srt ⟨dryRun, "newest"⟩ referentHashes hash files fs stdin).crashed
        = false ∧
      (plannedPaths
        (processBucket srt ⟨dryRun, "newest"⟩ referentHashes hash files fs stdin).out).Perm
        (files.erase m) := by
  obtain ⟨m, rest, h1, h2, h3⟩ := sort_newest srt hs fs files hne hstat
  have hm : m ∈ files := h2.subset (List.mem_cons_self _ _)
  have hlatest : ∀ p ∈ files,
      ∃ tp tm, osStat fs p = some tp ∧ osStat fs m = some tm ∧ tp ≤ tm := by
    intro p hp
    rcases List.mem_cons.1 (h2.symm.subset hp) with h | h
    · subst h
      obtain ⟨tm, htm⟩ := stat_some fs files hstat p hm
      exact ⟨tm, tm, htm, htm, le_refl tm⟩
    · exact h3 p h
  have herase : rest.Perm (files.erase m) := by
    have := h2.erase m
    rwa [List.erase_cons_head] at this
  by_cases hlen : files.length ≤ 1
  · rw [processBucket_small srt ⟨dryRun, "newest"⟩ referentHashes hash files
      fs stdin href hlen]
    have hrest : rest = [] := by
      have hl := h2.length_eq
      simp only [List.length_cons] at hl
      exact List.length_eq_zero.1 (by omega)
    subst hrest
    refine ⟨m, hm, hlatest, rfl, ?_⟩
    simpa [plannedPaths, wouldRemovePaths, removingPaths] using herase
  · have hlen2 : 2 ≤ files.length := by omega
    refine ⟨m, hm, hlatest, ?_, ?_⟩
    · rw [processBucket_newest srt dryRun referentHashes hash files fs stdin href hlen2, h1]
    · rw [processBucket_newest srt dryRun referentHashes hash files fs stdin href hlen2, h1]
      simp only [List.drop_succ_cons, List.drop_zero]
      rw [plannedPaths_removeFiles]
      exact herase

/-- Three duplicates modified at 1, 3 and 3: one of the two newest is kept out
of the plan, the other two entries are planned. -/
theorem C8_newest_survives_witness :
    (hasKey [] "h" = false ∧ ["a", "b", "c"] ≠ [] ∧
      ∀ p ∈ ["a", "b", "c"], osStat ⟨[("a", 1), ("b", 3), ("c", 3)]⟩ p ≠ none) ∧
    (∃ m ∈ ["a", "b", "c"],
      (∀ p ∈ ["a", "b", "c"], ∃ tp tm,
        osStat ⟨[("a", 1), ("b", 3), ("c", 3)]⟩ p = some tp ∧
        osStat ⟨[("a", 1), ("b", 3), ("c", 3)]⟩ m = some tm ∧ tp ≤ tm) ∧
      (processBucket insertionSort ⟨true, "newest"⟩ [] "h" ["a", "b", "c"]
        ⟨[("a", 1), ("b", 3), ("c", 3)]⟩ []).crashed = false ∧
      (plannedPaths
        (processBucket insertionSort ⟨true, "newest"⟩ [] "h" ["a", "b", "c"]
          ⟨[("a", 1), ("b", 3), ("c", 3)]⟩ []).out).Perm
        (["a", "b", "c"].erase m)) ∧
    plannedPaths (processBucket insertionSort ⟨true, "newest"⟩ [] "h" ["a", "b", "c"]
      ⟨[("a", 1), ("b", 3), ("c", 3)]⟩ []).out = ["c", "a"] :=
  ⟨⟨by decide, by decide, by decide⟩,
   C8_newest_survives insertionSort insertionSort_contract true [] "h" ["a", "b", "c"]
     ⟨[("a", 1), ("b", 3), ("c", 3)]⟩ [] (by decide) (by decide) (by decide),
   by decide⟩

/-! ## Interactive selection -/

theorem foldl_parseStep (l : List (List Char)) :
    ∀ init : List Int, l.foldl parseStep init = init ++ l.filterMap atoi := by
  induction l with
  | nil => intro init; simp
  | cons x xs ih =>
    intro init
    simp only [List.foldl_cons, List.filterMap_cons]
    rw [ih]
    unfold parseStep
    cases atoi x <;> simp

theorem parseInput_eq (input : String) :
    parseInput input = (splitComma input.toList).filterMap atoi := by
  unfold parseInput
  rw [foldl_parseStep]
  simp

theorem foldl_selectStep (files : List Path) (l : List Int) :
    ∀ init : List Path, l.foldl (selectStep files) init = init ++ l.filterMap (fun i =>
      if 0 ≤ i ∧ i < (files.length : Int) then files[i.toNat]? else none) := by
  induction l with
  | nil => intro init; simp
  | cons x xs ih =>
    intro init
    simp only [List.foldl_cons, List.filterMap_cons]
    rw [ih]
    unfold selectStep
    by_cases hc : 0 ≤ x ∧ x < (files.length : Int)
    · simp only [hc, and_self, if_true]
      cases files[x.toNat]? <;> simp
    · simp only [hc, if_false]

theorem selectIndices_eq (files : List Path) (indices : List Int) :
    selectIndices files indices = indices.filterMap (fun i =>
      if 0 ≤ i ∧ i < (files.length : Int) then files[i.toNat]? else none) := by
  unfold selectIndices
  rw [foldl_selectStep]
  simp

theorem selectIndices_parseInput (files : List Path) (input : String) :
    selectIndices files (parseInput input) = specSelection files input := by
  rw [selectIndices_eq, parseInput_eq, List.filterMap_filterMap]
  unfold specSelection
  congr 1
  funext token
  cases atoi token <;> simp

theorem paths_listFiles (fs : FileSystem) (files : List Path) :
    ∀ i : Nat, wouldRemovePaths (listFiles fs i files) = [] ∧
      removingPaths (listFiles fs i files) = [] := by
  induction files with
  | nil => intro i; exact ⟨rfl, rfl⟩
  | cons f rest ih =>
    intro i
    unfold listFiles
    cases osStat fs f <;> simp [wouldRemovePaths, removingPaths, ih (i + 1)]

theorem processBucket_interactive (srt : Sorter) (dryRun : Bool)
    (referentHashes : HashMap) (hash : String) (files : List Path)
    (fs : FileSystem) (stdin : List String)
    (href : hasKey referentHashes hash = false) (hlen : 2 ≤ files.length) :
    processBucket srt ⟨dryRun, "interactive"⟩ referentHashes hash files fs stdin
      = ⟨(removeFiles dryRun false
            (if (scanln stdin).1 = "a" then files.drop 1
             else selectIndices files (parseInput (scanln stdin).1)) fs).1,
         (scanln stdin).2,
         (Event.duplicatesFound hash :: listFiles fs 0 files ++ [Event.selectPrompt])
           ++ (removeFiles dryRun false
            (if (scanln stdin).1 = "a" then files.drop 1
             else selectIndices files (parseInput (scanln stdin).1)) fs).2,
         false⟩ := by
  have h1 : ¬ files.length ≤ 1 := by omega
  have h2 : ¬ ("interactive" = "newest") := by decide
  have h3 : ¬ ("interactive" = "oldest") := by decide
  unfold processBucket chooseToRemove
  simp only [href, h1, h2, h3, if_false, if_true, Bool.false_eq_true]
  by_cases ha : (scanln stdin).1 = "a"
  · simp only [ha, if_true]
  · simp only [ha, if_false]

theorem plannedPaths_shown (shown rest : List Event)
    (h1 : wouldRemovePaths shown = []) (h2 : removingPaths shown = []) :
    plannedPaths (shown ++ rest) = plannedPaths rest := by
  unfold plannedPaths
  rw [wouldRemovePaths_append, removingPaths_append, h1, h2]
  simp

theorem plannedPaths_interactive (dryRun : Bool) (hash : String) (files toRemove : List Path)
    (fs : FileSystem) :
    plannedPaths ((Event.duplicatesFound hash :: listFiles fs 0 files ++ [Event.selectPrompt])
      ++ (removeFiles dryRun false toRemove fs).2) = toRemove := by
  rw [plannedPaths_shown, plannedPaths_removeFiles]
  · have h := (paths_listFiles fs files 0).1
    simp [wouldRemovePaths, wouldRemovePaths_append, h]
  · have h := (paths_listFiles fs files 0).2
    simp [removingPaths, removingPaths_append, h]

theorem specSelection_empty (files : List Path) : specSelection files "" = [] := by
  rfl

theorem specSelection_invalid (files : List Path) (input : String)
    (h : ∀ token ∈ splitComma input.toList, ∀ i : Int, atoi token = some i →
      ¬ (0 ≤ i ∧ i < (files.length : Int))) :
    specSelection files input = [] := by
  unfold specSelection
  rw [List.filterMap_eq_nil_iff]
  intro token ht
  cases ha : atoi token with
  | none => rfl
  | some i => simp only [h token ht i ha, if_false]

/-- Claim C9: in interactive mode a bucket without referent match that holds at
least two paths is resolved without error from the word read; the word "a"
selects `files[1:]`; any other word selects, token by token in order, the path
at each index that parses and is in range, so that the empty word and a word
without any valid token select nothing. -/
theorem C9_interactive_selection (srt : Sorter) (dryRun : Bool)
    (referentHashes : HashMap) (hash : String) (files : List Path)
    (fs : FileSystem) (input : String) (rest : List String)
    (href : hasKey referentHashes hash = false) (hlen : 2 ≤ files.length) :
    (processBucket srt ⟨dryRun, "interactive"⟩ referentHashes hash files fs
      (input :: rest)).crashed = false ∧
    (processBucket srt ⟨dryRun, "interactive"⟩ referentHashes hash files fs
      (input :: rest)).stdin = rest ∧
    (input = "a" →
      plannedPaths (processBucket srt ⟨dryRun, "interactive"⟩ referentHashes hash files fs
        (input :: rest)).out = files.drop 1) ∧
    (input ≠ "a" →
      plannedPaths (processBucket srt ⟨dryRun, "interactive"⟩ referentHashes hash files fs
        (input :: rest)).out = specSelection files input) ∧
    (input = "" →
      plannedPaths (processBucket srt ⟨dryRun, "interactive"⟩ referentHashes hash files fs
        (input :: rest)).out = []) ∧
    (input ≠ "a" →
      (∀ token ∈ splitComma input.toList, ∀ i : Int, atoi token = some i →
        ¬ (0 ≤ i ∧ i < (files.length : Int))) →
      plannedPaths (processBucket srt ⟨dryRun, "interactive"⟩ referentHashes hash files fs
        (input :: rest)).out = []) := by
  rw [processBucket_interactive srt dryRun referentHashes hash files fs (input :: rest)
    href hlen]
  simp only [plannedPaths_interactive]
  have hs : scanln (input :: rest) = (input, rest) := rfl
  simp only [hs]
  refine ⟨trivial, trivial, ?_, ?_, ?_, ?_⟩
  · intro h; simp only [h, if_true]
  · intro h; simp only [h, if_false]; exact selectIndices_parseInput files input
  · intro h
    subst h
    have hne : ¬ ("" = "a") := by decide
    simp only [hne, if_false]
    rw [selectIndices_parseInput]
    exact specSelection_empty files
  · intro h hinv
    simp only [h, if_false]
    rw [selectIndices_parseInput]
    exact specSelection_invalid files input hinv

/-- The word "2,x,7,+0" over three files selects index 2, then index 0. -/
theorem C9_interactive_selection_witness :
    (hasKey [] "h" = false ∧ 2 ≤ ["p0", "p1", "p2"].length ∧ "2,x,7,+0" ≠ "a") ∧
    plannedPaths (processBucket insertionSort ⟨true, "interactive"⟩ [] "h"
      ["p0", "p1", "p2"] ⟨[("p0", 1), ("p1", 1), ("p2", 1)]⟩
      ["2,x,7,+0", "next"]).out = specSelection ["p0", "p1", "p2"] "2,x,7,+0" ∧
    specSelection ["p0", "p1", "p2"] "2,x,7,+0" = ["p2", "p0"] ∧
    plannedPaths (processBucket insertionSort ⟨true, "interactive"⟩ [] "h"
      ["p0", "p1", "p2"] ⟨[("p0", 1), ("p1", 1), ("p2", 1)]⟩ ["a"]).out = ["p1", "p2"] :=
  ⟨⟨by decide, by decide, by decide⟩,
   (C9_interactive_selection insertionSort true [] "h" ["p0", "p1", "p2"]
     ⟨[("p0", 1), ("p1", 1), ("p2", 1)]⟩ "2,x,7,+0" ["next"] (by decide) (by decide)).2.2.2.1
     (by decide),
   by decide, by decide⟩

/-! ## What a run touches -/

theorem selectIndices_subset (files : List Path) (indices : List Int) :
    ∀ p ∈ selectIndices files indices, p ∈ files := by
  intro p hp
  rw [selectIndices_eq, List.mem_filterMap] at hp
  obtain ⟨i, _, hi⟩ := hp
  by_cases hc : 0 ≤ i ∧ i < (files.length : Int)
  · simp only [hc, and_self, if_true] at hi
    exact List.getElem?_mem hi
  · simp only [hc, if_false] at hi
    cases hi

theorem chooseToRemove_sound (srt : Sorter) (hs : SortSliceContract srt)
    (removeBy hash : String) (files : List Path) (fs : FileSystem) (stdin : List String) :
    wouldRemovePaths (chooseToRemove srt removeBy hash files fs stdin).2.1 = [] ∧
    removingPaths (chooseToRemove srt removeBy hash files fs stdin).2.1 = [] ∧
    ∀ toRemove, (chooseToRemove srt removeBy hash files fs stdin).1 = some toRemove →
      ∀ p ∈ toRemove, p ∈ files := by
  unfold chooseToRemove
  by_cases h1 : removeBy = "newest"
  · simp only [h1, if_true]
    refine ⟨rfl, rfl, ?_⟩
    intro toRemove ht p hp
    cases hsrt : srt (lessNewest fs) files with
    | none => simp [hsrt] at ht
    | some sorted =>
      simp [hsrt] at ht
      subst ht
      exact (hs.perm _ _ _ hsrt).subset (List.mem_of_mem_tail hp)
  · by_cases h2 : removeBy = "oldest"
    · simp only [h1, h2, if_true, if_false]
      refine ⟨rfl, rfl, ?_⟩
      intro toRemove ht p hp
      cases hsrt : srt (lessOldest fs) files with
      | none => simp [hsrt] at ht
      | some sorted =>
        simp [hsrt] at ht
        subst ht
        exact (hs.perm _ _ _ hsrt).subset (List.mem_of_mem_tail hp)
    · by_cases h3 : removeBy = "interactive"
      · simp only [h1, h2, h3, if_true, if_false]
        have hw : wouldRemovePaths
            (Event.duplicatesFound hash :: listFiles fs 0 files ++ [Event.selectPrompt])
            = [] := by
          have h := (paths_listFiles fs files 0).1
          simp [wouldRemovePaths, wouldRemovePaths_append, h]
        have hr : removingPaths
            (Event.duplicatesFound hash :: listFiles fs 0 files ++ [Event.selectPrompt])
            = [] := by
          have h := (paths_listFiles fs files 0).2
          simp [removingPaths, removingPaths_append, h]
        by_cases ha : (scanln stdin).1 = "a"
        · simp only [ha, if_true]
          refine ⟨hw, hr, ?_⟩
          intro toRemove ht p hp
          simp at ht
          subst ht
          exact List.mem_of_mem_tail hp
        · simp only [ha, if_false]
          refine ⟨hw, hr, ?_⟩
          intro toRemove ht p hp
          simp at ht
          subst ht
          exact selectIndices_subset files _ p hp
      · simp only [h1, h2, h3, if_false]
        refine ⟨rfl, rfl, ?_⟩
        intro toRemove ht p hp
        simp at ht
        subst ht
        simp at hp

theorem removeFiles_fs (dryRun referent : Bool) (files : List Path) (fs : FileSystem) :
    (removeFiles dryRun referent files fs).1
      = (removingPaths (removeFiles dryRun referent files fs).2).foldl osRemove fs := by
  rw [(paths_removeFiles dryRun referent files fs).2]
  cases dryRun with
  | true => rw [removeFiles_dry]; rfl
  | false => rw [removeFiles_real]; rfl

/-- One bucket: the planned paths are paths of the bucket, and the file system
changes by the removals announced and by nothing else. -/
theorem processBucket_frame (srt : Sorter) (hs : SortSliceContract srt) (cfg : Config)
    (referentHashes : HashMap) (hash : String) (files : List Path)
    (fs : FileSystem) (stdin : List String) :
    (∀ p ∈ plannedPaths (processBucket srt cfg referentHashes hash files fs stdin).out,
      p ∈ files) ∧
    (processBucket srt cfg referentHashes hash files fs stdin).fs
      = (removingPaths (processBucket srt cfg referentHashes hash files fs stdin).out).foldl
          osRemove fs := by
  unfold processBucket
  by_cases href : hasKey referentHashes hash = true
  · simp only [href, if_true]
    rw [plannedPaths_removeFiles]
    exact ⟨fun p hp => hp, removeFiles_fs _ _ _ _⟩
  · simp only [href, if_false, Bool.false_eq_true]
    by_cases hlen : files.length ≤ 1
    · simp only [hlen, if_true]
      exact ⟨by simp [plannedPaths, wouldRemovePaths, removingPaths], rfl⟩
    · simp only [hlen, if_false]
      have hsound := chooseToRemove_sound srt hs cfg.removeBy hash files fs stdin
      rcases hc : chooseToRemove srt cfg.removeBy hash files fs stdin with ⟨o, shown, stdin2⟩
      rw [hc] at hsound
      obtain ⟨hw, hr, hsub⟩ := hsound
      simp only at hw hr hsub
      cases o with
      | none =>
        simp only
        constructor
        · intro p hp
          simp [plannedPaths, hw, hr] at hp
        · rw [hr]; rfl
      | some toRemove =>
        simp only
        constructor
        · intro p hp
          rw [plannedPaths_shown shown _ hw hr, plannedPaths_removeFiles] at hp
          exact hsub toRemove rfl p hp
        · rw [removingPaths_append, hr, List.nil_append]
          exact removeFiles_fs _ _ _ _

theorem mem_plannedPaths_append (a b : List Event) (p : Path) :
    p ∈ plannedPaths (a ++ b) ↔ p ∈ plannedPaths a ∨ p ∈ plannedPaths b := by
  unfold plannedPaths
  rw [wouldRemovePaths_append, removingPaths_append]
  simp only [List.mem_append]
  tauto

theorem removeDuplicates_frame (srt : Sorter) (hs : SortSliceContract srt) (cfg : Config)
    (referentHashes : HashMap) (fileHashes : HashMap) :
    ∀ (fs : FileSystem) (stdin : List String),
      (∀ p ∈ plannedPaths (removeDuplicates srt cfg referentHashes fileHashes fs stdin).out,
        ∃ b ∈ fileHashes, p ∈ b.2) ∧
      (removeDuplicates srt cfg referentHashes fileHashes fs stdin).fs
        = (removingPaths
            (removeDuplicates srt cfg referentHashes fileHashes fs stdin).out).foldl
            osRemove fs := by
  induction fileHashes with
  | nil =>
    intro fs stdin
    exact ⟨by simp [removeDuplicates, plannedPaths, wouldRemovePaths, removingPaths], rfl⟩
  | cons b rest ih =>
    intro fs stdin
    obtain ⟨hash, files⟩ := b
    rw [removeDuplicates_cons]
    have hb := processBucket_frame srt hs cfg referentHashes hash files fs stdin
    by_cases hc : (processBucket srt cfg referentHashes hash files fs stdin).crashed = true
    · rw [if_pos hc]
      refine ⟨?_, hb.2⟩
      intro p hp
      exact ⟨(hash, files), List.mem_cons_self _ _, hb.1 p hp⟩
    · rw [if_neg hc]
      have hr := ih (processBucket srt cfg referentHashes hash files fs stdin).fs
        (processBucket srt cfg referentHashes hash files fs stdin).stdin
      constructor
      · intro p hp
        rcases (mem_plannedPaths_append _ _ p).1 hp with h | h
        · exact ⟨(hash, files), List.mem_cons_self _ _, hb.1 p h⟩
        · obtain ⟨b2, hb2, hp2⟩ := hr.1 p h
          exact ⟨b2, List.mem_cons_of_mem _ hb2, hp2⟩
      · rw [removingPaths_append, List.foldl_append, ← hb.2]
        exact hr.2

/-- Claim C5: every path a run deletes or reports for removal is an element of
some bucket of `fileHashes`, for every `removeBy` and input; the file system
changes by the announced removals only, so a path outside every source bucket,
such as a file known from `referentHashes` alone, is neither reported nor
deleted. -/
theorem C5_only_bucket_paths (srt : Sorter) (hs : SortSliceContract srt) (cfg : Config)
    (referentHashes fileHashes : HashMap) (fs : FileSystem) (stdin : List String) :
    (∀ p ∈ plannedPaths (removeDuplicates srt cfg referentHashes fileHashes fs stdin).out,
      ∃ b ∈ fileHashes, p ∈ b.2) ∧
    (removeDuplicates srt cfg referentHashes fileHashes fs stdin).fs
      = (removingPaths
          (removeDuplicates srt cfg referentHashes fileHashes fs stdin).out).foldl
          osRemove fs ∧
    (∀ p, (∀ b ∈ fileHashes, p ∉ b.2) →
      p ∉ plannedPaths (removeDuplicates srt cfg referentHashes fileHashes fs stdin).out ∧
      osStat (removeDuplicates srt cfg referentHashes fileHashes fs stdin).fs p
        = osStat fs p) := by
  have h := removeDuplicates_frame srt hs cfg referentHashes fileHashes fs stdin
  refine ⟨h.1, h.2, ?_⟩
  intro p hp
  have hnot : p ∉ plannedPaths
      (removeDuplicates srt cfg referentHashes fileHashes fs stdin).out := by
    intro hm
    obtain ⟨b, hb, hpb⟩ := h.1 p hm
    exact hp b hb hpb
  refine ⟨hnot, ?_⟩
  rw [h.2]
  apply osStat_foldl_osRemove_of_not_mem
  intro hm
  apply hnot
  unfold plannedPaths
  exact List.mem_append_right _ hm

/-- Source files f1 and f2 and referent file g1 share one content: f1 and f2
are removed and g1 is left in place. -/
theorem C5_only_bucket_paths_witness :
    SortSliceContract insertionSort ∧
    (∀ b ∈ [("A", ["src/f1", "src/f2"])], "ref/g1" ∉ b.2) ∧
    ("ref/g1" ∉ plannedPaths (removeDuplicates insertionSort ⟨false, "newest"⟩
        [("A", ["ref/g1"])] [("A", ["src/f1", "src/f2"])]
        ⟨[("src/f1", 1), ("src/f2", 2), ("ref/g1", 3)]⟩ []).out ∧
      osStat (removeDuplicates insertionSort ⟨false, "newest"⟩
        [("A", ["ref/g1"])] [("A", ["src/f1", "src/f2"])]
        ⟨[("src/f1", 1), ("src/f2", 2), ("ref/g1", 3)]⟩ []).fs "ref/g1"
        = osStat ⟨[("src/f1", 1), ("src/f2", 2), ("ref/g1", 3)]⟩ "ref/g1") ∧
    removeDuplicates insertionSort ⟨false, "newest"⟩
        [("A", ["ref/g1"])] [("A", ["src/f1", "src/f2"])]
        ⟨[("src/f1", 1), ("src/f2", 2), ("ref/g1", 3)]⟩ []
      = ⟨⟨[("ref/g1", 3)]⟩, [],
         [Event.removingReferent "src/f1", Event.removingReferent "src/f2"], false⟩ :=
  ⟨insertionSort_contract, by decide,
   (C5_only_bucket_paths insertionSort insertionSort_contract ⟨false, "newest"⟩
     [("A", ["ref/g1"])] [("A", ["src/f1", "src/f2"])]
     ⟨[("src/f1", 1), ("src/f2", 2), ("ref/g1", 3)]⟩ []).2.2 "ref/g1" (by decide),
   by decide⟩

/-! ## Dry run -/

theorem processBucket_dry (srt : Sorter) (removeBy : String) (referentHashes : HashMap)
    (hash : String) (files : List Path) (fs : FileSystem) (stdin : List String) :
    (processBucket srt ⟨true, removeBy⟩ referentHashes hash files fs stdin).fs = fs := by
  unfold processBucket
  by_cases href : hasKey referentHashes hash = true
  · simp only [href, if_true]
    rw [removeFiles_dry]
  · simp only [href, if_false, Bool.false_eq_true]
    by_cases hlen : files.length ≤ 1
    · simp only [hlen, if_true]
    · simp only [hlen, if_false]
      rcases hc : chooseToRemove srt removeBy hash files fs stdin with ⟨o, shown, stdin2⟩
      cases o with
      | none => rfl
      | some toRemove =>
        simp only
        rw [removeFiles_dry]

theorem removeDuplicates_dry (srt : Sorter) (removeBy : String) (referentHashes : HashMap)
    (fileHashes : HashMap) :
    ∀ (fs : FileSystem) (stdin : List String),
      (removeDuplicates srt ⟨true, removeBy⟩ referentHashes fileHashes fs stdin).fs = fs := by
  induction fileHashes with
  | nil => intro fs stdin; rfl
  | cons b rest ih =>
    intro fs stdin
    obtain ⟨hash, files⟩ := b
    rw [removeDuplicates_cons]
    have hb := processBucket_dry srt removeBy referentHashes hash files fs stdin
    by_cases hc : (processBucket srt ⟨true, removeBy⟩ referentHashes hash files fs
        stdin).crashed = true
    · rw [if_pos hc]; exact hb
    · rw [if_neg hc]
      simp only
      rw [ih, hb]

theorem listFiles_congr (fsd fsr : FileSystem) (files : List Path) :
    ∀ i : Nat, (∀ p ∈ files, osStat fsd p = osStat fsr p) →
      listFiles fsd i files = listFiles fsr i files := by
  induction files with
  | nil => intro i _; rfl
  | cons f rest ih =>
    intro i h
    unfold listFiles
    rw [h f (List.mem_cons_self _ _),
      ih (i + 1) (fun p hp => h p (List.mem_cons_of_mem _ hp))]

theorem chooseToRemove_congr (srt : Sorter) (hs : SortSliceContract srt)
    (removeBy hash : String) (files : List Path) (fsd fsr : FileSystem)
    (stdin : List String) (h : ∀ p ∈ files, osStat fsd p = osStat fsr p) :
    chooseToRemove srt removeBy hash files fsd stdin
      = chooseToRemove srt removeBy hash files fsr stdin := by
  have hn : srt (lessNewest fsd) files = srt (lessNewest fsr) files := by
    apply hs.loc
    intro a ha b hb
    unfold lessNewest
    rw [h a ha, h b hb]
  have ho : srt (lessOldest fsd) files = srt (lessOldest fsr) files := by
    apply hs.loc
    intro a ha b hb
    unfold lessOldest
    rw [h a ha, h b hb]
  unfold chooseToRemove
  rw [hn, ho, listFiles_congr fsd fsr files 0 h]

/-- One bucket, dry and real, started on file systems that agree on the
metadata of the bucket's paths. -/
theorem processBucket_dry_real (srt : Sorter) (hs : SortSliceContract srt)
    (removeBy : String) (referentHashes : HashMap) (hash : String) (files : List Path)
    (fsd fsr : FileSystem) (stdin : List String)
    (h : ∀ p ∈ files, osStat fsd p = osStat fsr p) :
    (processBucket srt ⟨true, removeBy⟩ referentHashes hash files fsd stdin).crashed
      = (processBucket srt ⟨false, removeBy⟩ referentHashes hash files fsr stdin).crashed ∧
    (processBucket srt ⟨true, removeBy⟩ referentHashes hash files fsd stdin).stdin
      = (processBucket srt ⟨false, removeBy⟩ referentHashes hash files fsr stdin).stdin ∧
    wouldRemovePaths
        (processBucket srt ⟨true, removeBy⟩ referentHashes hash files fsd stdin).out
      = removingPaths
        (processBucket srt ⟨false, removeBy⟩ referentHashes hash files fsr stdin).out := by
  unfold processBucket
  by_cases href : hasKey referentHashes hash = true
  · simp only [href, if_true]
    refine ⟨trivial, trivial, ?_⟩
    rw [(paths_removeFiles true true files fsd).1, (paths_removeFiles false true files fsr).2]
    rfl
  · simp only [href, if_false, Bool.false_eq_true]
    by_cases hlen : files.length ≤ 1
    · simp only [hlen, if_true]
      exact ⟨trivial, trivial, rfl⟩
    · simp only [hlen, if_false]
      rw [chooseToRemove_congr srt hs removeBy hash files fsd fsr stdin h]
      have hsound := chooseToRemove_sound srt hs removeBy hash files fsr stdin
      rcases hc : chooseToRemove srt removeBy hash files fsr stdin with ⟨o, shown, stdin2⟩
      rw [hc] at hsound
      obtain ⟨hw, hr, _⟩ := hsound
      simp only at hw hr
      cases o with
      | none =>
        simp only
        exact ⟨trivial, trivial, by rw [hw, hr]⟩
      | some toRemove =>
        simp only
        refine ⟨trivial, trivial, ?_⟩
        rw [wouldRemovePaths_append, removingPaths_append, hw, hr,
          (paths_removeFiles true false toRemove fsd).1,
          (paths_removeFiles false false toRemove fsr).2]
        rfl

theorem insertBack_compared (less : Less) (x y : Path) (ys r : List Path)
    (h : insertBack less x (y :: ys) = some r) : less x y ≠ none := by
  intro hn
  unfold insertBack at h
  simp [hn] at h

theorem insertBack_ne_nil (less : Less) (x : Path) (acc r : List Path)
    (h : insertBack less x acc = some r) : r ≠ [] := by
  intro hr
  subst hr
  have := (insertBack_perm less x acc [] h).length_eq
  simp at this

theorem insertionSortAux_compared (less : Less) :
    ∀ (xs acc r : List Path), insertionSortAux less acc xs = some r → acc ≠ [] →
      ∀ a ∈ xs, ∃ b, (b ∈ acc ∨ b ∈ xs) ∧ less a b ≠ none := by
  intro xs
  induction xs with
  | nil => intro acc r _ _ a ha; simp at ha
  | cons x xs ih =>
    intro acc r h hacc a ha
    unfold insertionSortAux at h
    cases hi : insertBack less x acc with
    | none => simp [hi] at h
    | some acc2 =>
      simp only [hi] at h
      rcases List.mem_cons.1 ha with h1 | h1
      · subst h1
        cases acc with
        | nil => exact absurd rfl hacc
        | cons y ys =>
          exact ⟨y, Or.inl (List.mem_cons_self _ _), insertBack_compared less a y ys acc2 hi⟩
      · obtain ⟨b, hb, hlb⟩ := ih acc2 r h (insertBack_ne_nil less x acc acc2 hi) a h1
        refine ⟨b, ?_, hlb⟩
        rcases hb with hb | hb
        · rcases List.mem_cons.1 ((insertBack_perm less x acc acc2 hi).subset hb) with h2 | h2
          · subst h2; exact Or.inr (List.mem_cons_self _ _)
          · exact Or.inl h2
        · exact Or.inr (List.mem_cons_of_mem _ hb)

/-- The insertion sort of the standard library compares every element of a
slice of two or more. -/
theorem insertionSort_compares : SortSliceCompares insertionSort := by
  intro less l r h hlen a ha
  cases l with
  | nil => simp at hlen
  | cons x0 rest =>
    cases rest with
    | nil => simp at hlen
    | cons x1 rest2 =>
      have h2 : insertionSortAux less [x0] (x1 :: rest2) = some r := h
      have hall := insertionSortAux_compared less (x1 :: rest2) [x0] r h2 (by simp)
      rcases List.mem_cons.1 ha with h1 | h1
      · subst h1
        obtain ⟨b, hb, hlb⟩ := hall x1 (List.mem_cons_self _ _)
        have h3 : insertionSortAux less [a] (x1 :: rest2) = some r := h2
        unfold insertionSortAux at h3
        cases hi : insertBack less x1 [a] with
        | none => simp [hi] at h3
        | some acc2 =>
          exact ⟨x1, List.mem_cons_of_mem _ (List.mem_cons_self _ _),
            Or.inr (insertBack_compared less x1 a [] acc2 hi)⟩
      · obtain ⟨b, hb, hlb⟩ := hall a h1
        refine ⟨b, ?_, Or.inl hlb⟩
        rcases hb with hb | hb
        · simp at hb
          subst hb
          exact List.mem_cons_self _ _
        · exact List.mem_cons_of_mem _ hb

theorem lessNewest_ne_none (fs : FileSystem) (a b : Path)
    (h : lessNewest fs a b ≠ none) : osStat fs a ≠ none ∧ osStat fs b ≠ none := by
  unfold lessNewest at h
  cases ha : osStat fs a <;> cases hb : osStat fs b <;> simp [ha, hb] at h ⊢

theorem lessOldest_ne_none (fs : FileSystem) (a b : Path)
    (h : lessOldest fs a b ≠ none) : osStat fs a ≠ none ∧ osStat fs b ≠ none := by
  unfold lessOldest at h
  cases ha : osStat fs a <;> cases hb : osStat fs b <;> simp [ha, hb] at h ⊢

theorem sorted_newest_readable (srt : Sorter) (hc : SortSliceCompares srt)
    (fs : FileSystem) (files r : List Path) (hlen : 2 ≤ files.length)
    (h : srt (lessNewest fs) files = some r) : ∀ a ∈ files, osStat fs a ≠ none := by
  intro a ha
  obtain ⟨b, _, hb⟩ := hc (lessNewest fs) files r h hlen a ha
  rcases hb with hb | hb
  · exact (lessNewest_ne_none fs a b hb).1
  · exact (lessNewest_ne_none fs b a hb).2

theorem sorted_oldest_readable (srt : Sorter) (hc : SortSliceCompares srt)
    (fs : FileSystem) (files r : List Path) (hlen : 2 ≤ files.length)
    (h : srt (lessOldest fs) files = some r) : ∀ a ∈ files, osStat fs a ≠ none := by
  intro a ha
  obtain ⟨b, _, hb⟩ := hc (lessOldest fs) files r h hlen a ha
  rcases hb with hb | hb
  · exact (lessOldest_ne_none fs a b hb).1
  · exact (lessOldest_ne_none fs b a hb).2

theorem osStat_foldl_osRemove_some (files : List Path) (p : Path) (t : ModTime)
    (fs : FileSystem) (h : osStat (files.foldl osRemove fs) p = some t) :
    osStat fs p = some t := by
  by_cases hm : p ∈ files
  · rw [osStat_foldl_osRemove_of_mem files p fs hm] at h
    cases h
  · rw [osStat_foldl_osRemove_of_not_mem files p fs hm] at h
    exact h

theorem chooseToRemove_shown (srt : Sorter) (removeBy hash : String) (files : List Path)
    (fs : FileSystem) (stdin : List String) :
    wouldRemovePaths (chooseToRemove srt removeBy hash files fs stdin).2.1 = [] ∧
    removingPaths (chooseToRemove srt removeBy hash files fs stdin).2.1 = [] := by
  unfold chooseToRemove
  by_cases h1 : removeBy = "newest"
  · simp only [h1, if_true]
    exact ⟨rfl, rfl⟩
  · by_cases h2 : removeBy = "oldest"
    · simp only [h1, h2, if_true, if_false]
      exact ⟨rfl, rfl⟩
    · by_cases h3 : removeBy = "interactive"
      · simp only [h1, h2, h3, if_true, if_false]
        have hw : wouldRemovePaths
            (Event.duplicatesFound hash :: listFiles fs 0 files ++ [Event.selectPrompt])
            = [] := by
          have h := (paths_listFiles fs files 0).1
          simp [wouldRemovePaths, wouldRemovePaths_append, h]
        have hr : removingPaths
            (Event.duplicatesFound hash :: listFiles fs 0 files ++ [Event.selectPrompt])
            = [] := by
          have h := (paths_listFiles fs files 0).2
          simp [removingPaths, removingPaths_append, h]
        by_cases ha : (scanln stdin).1 = "a"
        · simp only [ha, if_true]
          exact ⟨hw, hr⟩
        · simp only [ha, if_false]
          exact ⟨hw, hr⟩
      · simp only [h1, h2, h3, if_false]
        exact ⟨rfl, rfl⟩

theorem processBucket_dry_calls (srt : Sorter) (removeBy : String)
    (referentHashes : HashMap) (hash : String) (files : List Path) (fs : FileSystem)
    (stdin : List String) :
    removingPaths
      (processBucket srt ⟨true, removeBy⟩ referentHashes hash files fs stdin).out = [] := by
  unfold processBucket
  by_cases href : hasKey referentHashes hash = true
  · simp only [href, if_true]
    exact (paths_removeFiles true true files fs).2
  · simp only [href, if_false, Bool.false_eq_true]
    by_cases hlen : files.length ≤ 1
    · simp only [hlen, if_true]
      rfl
    · simp only [hlen, if_false]
      have hsh := chooseToRemove_shown srt removeBy hash files fs stdin
      rcases hc : chooseToRemove srt removeBy hash files fs stdin with ⟨o, shown, stdin2⟩
      rw [hc] at hsh
      simp only at hsh
      cases o with
      | none => simp only; exact hsh.2
      | some toRemove =>
        simp only
        rw [removingPaths_append, hsh.2, (paths_removeFiles true false toRemove fs).2]
        rfl

theorem removeDuplicates_dry_calls (srt : Sorter) (removeBy : String)
    (referentHashes : HashMap) (fileHashes : HashMap) :
    ∀ (fs : FileSystem) (stdin : List String),
      removingPaths
        (removeDuplicates srt ⟨true, removeBy⟩ referentHashes fileHashes fs stdin).out
        = [] := by
  induction fileHashes with
  | nil => intro fs stdin; rfl
  | cons b rest ih =>
    intro fs stdin
    obtain ⟨hash, files⟩ := b
    rw [removeDuplicates_cons]
    have hb := processBucket_dry_calls srt removeBy referentHashes hash files fs stdin
    by_cases hc : (processBucket srt ⟨true, removeBy⟩ referentHashes hash files fs
        stdin).crashed = true
    · rw [if_pos hc]; exact hb
    · rw [if_neg hc]
      simp only
      rw [removingPaths_append, hb, ih]
      rfl

theorem chooseToRemove_unsorted (srt : Sorter) (removeBy hash : String)
    (files : List Path) (fsd fsr : FileSystem) (stdin : List String)
    (h1 : removeBy ≠ "newest") (h2 : removeBy ≠ "oldest") :
    (chooseToRemove srt removeBy hash files fsd stdin).1
      = (chooseToRemove srt removeBy hash files fsr stdin).1 ∧
    (chooseToRemove srt removeBy hash files fsd stdin).2.2
      = (chooseToRemove srt removeBy hash files fsr stdin).2.2 ∧
    (chooseToRemove srt removeBy hash files fsr stdin).1 ≠ none := by
  unfold chooseToRemove
  by_cases h3 : removeBy = "interactive"
  · simp only [h1, h2, h3, if_true, if_false]
    by_cases ha : (scanln stdin).1 = "a"
    · simp only [ha, if_true]
      exact ⟨rfl, rfl, by simp⟩
    · simp only [ha, if_false]
      exact ⟨rfl, rfl, by simp⟩
  · simp only [h1, h2, h3, if_false]
    exact ⟨trivial, trivial, by simp⟩

/-- One bucket, real and dry: when the real run resolves the bucket and every
file it can read is read alike by the dry run, the dry run resolves it too
and reports the paths the real run passes to `os.Remove`. -/
theorem processBucket_real_dry (srt : Sorter) (hs : SortSliceContract srt)
    (hc : SortSliceCompares srt) (removeBy : String) (referentHashes : HashMap)
    (hash : String) (files : List Path) (fsd fsr : FileSystem) (stdin : List String)
    (hsub : ∀ p t, osStat fsr p = some t → osStat fsd p = some t)
    (hreal : (processBucket srt ⟨false, removeBy⟩ referentHashes hash files fsr
      stdin).crashed = false) :
    (processBucket srt ⟨true, removeBy⟩ referentHashes hash files fsd stdin).crashed
      = false ∧
    (processBucket srt ⟨true, removeBy⟩ referentHashes hash files fsd stdin).stdin
      = (processBucket srt ⟨false, removeBy⟩ referentHashes hash files fsr stdin).stdin ∧
    wouldRemovePaths
        (processBucket srt ⟨true, removeBy⟩ referentHashes hash files fsd stdin).out
      = removingPaths
        (processBucket srt ⟨false, removeBy⟩ referentHashes hash files fsr stdin).out := by
  have hagree : (∀ a ∈ files, osStat fsr a ≠ none) →
      ∀ p ∈ files, osStat fsd p = osStat fsr p := by
    intro hread p hp
    obtain ⟨t, ht⟩ := stat_some fsr files hread p hp
    rw [ht, hsub p t ht]
  have hfrom : (∀ a ∈ files, osStat fsr a ≠ none) →
      (processBucket srt ⟨true, removeBy⟩ referentHashes hash files fsd stdin).crashed
        = false ∧
      (processBucket srt ⟨true, removeBy⟩ referentHashes hash files fsd stdin).stdin
        = (processBucket srt ⟨false, removeBy⟩ referentHashes hash files fsr
            stdin).stdin ∧
      wouldRemovePaths
          (processBucket srt ⟨true, removeBy⟩ referentHashes hash files fsd stdin).out
        = removingPaths
          (processBucket srt ⟨false, removeBy⟩ referentHashes hash files fsr
            stdin).out := by
    intro hread
    have h := processBucket_dry_real srt hs removeBy referentHashes hash files fsd fsr
      stdin (hagree hread)
    exact ⟨h.1.trans hreal, h.2.1, h.2.2⟩
  by_cases href : hasKey referentHashes hash = true
  · rw [processBucket_referent srt ⟨true, removeBy⟩ referentHashes hash files fsd stdin
      href, processBucket_referent srt ⟨false, removeBy⟩ referentHashes hash files fsr
      stdin href]
    refine ⟨rfl, rfl, ?_⟩
    simp only
    rw [(paths_removeFiles true true files fsd).1, (paths_removeFiles false true files fsr).2]
    rfl
  · have href2 : hasKey referentHashes hash = false := by simpa using href
    by_cases hlen : files.length ≤ 1
    · rw [processBucket_small srt ⟨true, removeBy⟩ referentHashes hash files fsd stdin
        href2 hlen, processBucket_small srt ⟨false, removeBy⟩ referentHashes hash files
        fsr stdin href2 hlen]
      exact ⟨rfl, rfl, rfl⟩
    · have hlen2 : 2 ≤ files.length := by omega
      by_cases h1 : removeBy = "newest"
      · subst h1
        have hr := hreal
        rw [processBucket_newest srt false referentHashes hash files fsr stdin href2
          hlen2] at hr
        cases hsrt : srt (lessNewest fsr) files with
        | none => rw [hsrt] at hr; cases hr
        | some r => exact hfrom (sorted_newest_readable srt hc fsr files r hlen2 hsrt)
      · by_cases h2 : removeBy = "oldest"
        · subst h2
          have hr := hreal
          rw [processBucket_oldest srt false referentHashes hash files fsr stdin href2
            hlen2] at hr
          cases hsrt : srt (lessOldest fsr) files with
          | none => rw [hsrt] at hr; cases hr
          | some r => exact hfrom (sorted_oldest_readable srt hc fsr files r hlen2 hsrt)
        · have hu := chooseToRemove_unsorted srt removeBy hash files fsd fsr stdin h1 h2
          have hshd := chooseToRemove_shown srt removeBy hash files fsd stdin
          have hshr := chooseToRemove_shown srt removeBy hash files fsr stdin
          unfold processBucket
          simp only [href, hlen, if_false, Bool.false_eq_true]
          rcases hd : chooseToRemove srt removeBy hash files fsd stdin with ⟨od, shd, sd⟩
          rcases hr : chooseToRemove srt removeBy hash files fsr stdin with ⟨o, shr, sr⟩
          rw [hd, hr] at hu
          rw [hd] at hshd
          rw [hr] at hshr
          simp only at hu hshd hshr
          obtain ⟨hu1, hu2, hu3⟩ := hu
          subst hu1
          subst hu2
          cases od with
          | none => exact absurd rfl hu3
          | some toRemove =>
            simp only
            refine ⟨trivial, trivial, ?_⟩
            rw [wouldRemovePaths_append, removingPaths_append, hshd.1, hshr.2,
              (paths_removeFiles true false toRemove fsd).1,
              (paths_removeFiles false false toRemove fsr).2]
            rfl

theorem removeDuplicates_real_dry (srt : Sorter) (hs : SortSliceContract srt)
    (hc : SortSliceCompares srt) (removeBy : String) (referentHashes : HashMap)
    (fileHashes : HashMap) :
    ∀ (fsd fsr : FileSystem) (stdin : List String),
      (∀ p t, osStat fsr p = some t → osStat fsd p = some t) →
      (removeDuplicates srt ⟨false, removeBy⟩ referentHashes fileHashes fsr
        stdin).crashed = false →
      (removeDuplicates srt ⟨true, removeBy⟩ referentHashes fileHashes fsd stdin).crashed
        = false ∧
      (removeDuplicates srt ⟨true, removeBy⟩ referentHashes fileHashes fsd stdin).stdin
        = (removeDuplicates srt ⟨false, removeBy⟩ referentHashes fileHashes fsr
            stdin).stdin ∧
      wouldRemovePaths
          (removeDuplicates srt ⟨true, removeBy⟩ referentHashes fileHashes fsd stdin).out
        = removingPaths
          (removeDuplicates srt ⟨false, removeBy⟩ referentHashes fileHashes fsr
            stdin).out := by
  induction fileHashes with
  | nil => intro fsd fsr stdin _ _; exact ⟨rfl, rfl, rfl⟩
  | cons b rest ih =>
    intro fsd fsr stdin hsub hreal
    obtain ⟨hash, files⟩ := b
    rw [removeDuplicates_cons] at hreal
    by_cases hcr : (processBucket srt ⟨false, removeBy⟩ referentHashes hash files fsr
        stdin).crashed = true
    · rw [if_pos hcr, hcr] at hreal
      cases hreal
    · rw [if_neg hcr] at hreal
      simp only at hreal
      have hcr2 : (processBucket srt ⟨false, removeBy⟩ referentHashes hash files fsr
          stdin).crashed = false := by simpa using hcr
      obtain ⟨hb1, hb2, hb3⟩ := processBucket_real_dry srt hs hc removeBy referentHashes
        hash files fsd fsr stdin hsub hcr2
      have hfr := processBucket_frame srt hs ⟨false, removeBy⟩ referentHashes hash files
        fsr stdin
      have hfd := processBucket_dry srt removeBy referentHashes hash files fsd stdin
      have hnext := ih
        (processBucket srt ⟨true, removeBy⟩ referentHashes hash files fsd stdin).fs
        (processBucket srt ⟨false, removeBy⟩ referentHashes hash files fsr stdin).fs
        (processBucket srt ⟨false, removeBy⟩ referentHashes hash files fsr stdin).stdin
        (by
          intro p t ht
          rw [hfd]
          rw [hfr.2] at ht
          exact hsub p t (osStat_foldl_osRemove_some _ p t fsr ht))
        hreal
      rw [removeDuplicates_cons, removeDuplicates_cons, if_neg hcr,
        if_neg (by rw [hb1]; simp)]
      simp only
      rw [hb2]
      refine ⟨hnext.1, hnext.2.1, ?_⟩
      rw [wouldRemovePaths_append, removingPaths_append, hb3, hnext.2.2]

theorem processBucket_stdin (srt : Sorter) (cfg : Config) (referentHashes : HashMap)
    (hash : String) (files : List Path) (fs : FileSystem) (stdin : List String)
    (hni : cfg.removeBy ≠ "interactive") :
    (processBucket srt cfg referentHashes hash files fs stdin).stdin = stdin := by
  unfold processBucket
  by_cases href : hasKey referentHashes hash = true
  · simp only [href, if_true]
  · simp only [href, if_false, Bool.false_eq_true]
    by_cases hlen : files.length ≤ 1
    · simp only [hlen, if_true]
    · simp only [hlen, if_false]
      have hst : (chooseToRemove srt cfg.removeBy hash files fs stdin).2.2 = stdin := by
        unfold chooseToRemove
        by_cases h1 : cfg.removeBy = "newest"
        · simp only [h1, if_true]
        · by_cases h2 : cfg.removeBy = "oldest"
          · rw [if_neg h1, if_pos h2]
          · rw [if_neg h1, if_neg h2, if_neg hni]
      rcases hc : chooseToRemove srt cfg.removeBy hash files fs stdin with ⟨o, shown, stdin2⟩
      rw [hc] at hst
      simp only at hst
      subst hst
      cases o <;> rfl

/-- A dry run under a policy other than "interactive" resolves every bucket on
the same file system and input: it completes when every bucket does, and then
reports what the buckets report. -/
theorem removeDuplicates_dry_buckets (srt : Sorter) (removeBy : String)
    (referentHashes : HashMap) (fs : FileSystem) (stdin : List String)
    (hni : removeBy ≠ "interactive") (order : HashMap) :
    ((removeDuplicates srt ⟨true, removeBy⟩ referentHashes order fs stdin).crashed = false
      ↔ ∀ b ∈ order,
        (processBucket srt ⟨true, removeBy⟩ referentHashes b.1 b.2 fs stdin).crashed
          = false) ∧
    ((removeDuplicates srt ⟨true, removeBy⟩ referentHashes order fs stdin).crashed = false →
      ∀ p, p ∈ wouldRemovePaths
          (removeDuplicates srt ⟨true, removeBy⟩ referentHashes order fs stdin).out
        ↔ ∃ b ∈ order, p ∈ wouldRemovePaths
          (processBucket srt ⟨true, removeBy⟩ referentHashes b.1 b.2 fs stdin).out) := by
  induction order with
  | nil =>
    refine ⟨by simp [removeDuplicates], ?_⟩
    intro _ p
    simp [removeDuplicates, wouldRemovePaths]
  | cons b rest ih =>
    obtain ⟨hash, files⟩ := b
    rw [removeDuplicates_cons]
    have hfs := processBucket_dry srt removeBy referentHashes hash files fs stdin
    have hst := processBucket_stdin srt ⟨true, removeBy⟩ referentHashes hash files fs stdin
      hni
    by_cases hcr : (processBucket srt ⟨true, removeBy⟩ referentHashes hash files fs
        stdin).crashed = true
    · rw [if_pos hcr]
      constructor
      · constructor
        · intro h; rw [hcr] at h; cases h
        · intro h
          have := h (hash, files) (List.mem_cons_self _ _)
          simp only at this
          rw [hcr] at this
          cases this
      · intro h; rw [hcr] at h; cases h
    · rw [if_neg hcr]
      simp only
      rw [hfs, hst]
      have hcr2 : (processBucket srt ⟨true, removeBy⟩ referentHashes hash files fs
          stdin).crashed = false := by simpa using hcr
      constructor
      · rw [ih.1]
        constructor
        · intro h b hb
          rcases List.mem_cons.1 hb with h1 | h1
          · subst h1; exact hcr2
          · exact h b h1
        · intro h b hb
          exact h b (List.mem_cons_of_mem _ hb)
      · intro h p
        rw [wouldRemovePaths_append, List.mem_append, ih.2 h p]
        constructor
        · intro hp
          rcases hp with hp | ⟨b, hb, hp⟩
          · exact ⟨(hash, files), List.mem_cons_self _ _, hp⟩
          · exact ⟨b, List.mem_cons_of_mem _ hb, hp⟩
        · intro ⟨b, hb, hp⟩
          rcases List.mem_cons.1 hb with h1 | h1
          · subst h1; exact Or.inl hp
          · exact Or.inr ⟨b, h1, hp⟩

/-- Claim C4 fails under the interactive policy: the two runs range over the
same map in orders of their own, so the words "0" and "1" reach different
buckets; the dry run reports a and d while the real run removes c and b.
Under "newest", with the metadata of b unreadable, the dry run that visits the
other bucket first reports c and the real run that visits the bucket of b
first stops before any removal. -/
theorem C4_counterexample :
    ([("h1", ["a", "b"]), ("h2", ["c", "d"])] : HashMap).Perm
      [("h2", ["c", "d"]), ("h1", ["a", "b"])] ∧
    (wouldRemovePaths (removeDuplicates insertionSort ⟨true, "interactive"⟩ []
        [("h1", ["a", "b"]), ("h2", ["c", "d"])]
        ⟨[("a", 1), ("b", 2), ("c", 3), ("d", 4)]⟩ ["0", "1"]).out = ["a", "d"] ∧
      removingPaths (removeDuplicates insertionSort ⟨false, "interactive"⟩ []
        [("h2", ["c", "d"]), ("h1", ["a", "b"])]
        ⟨[("a", 1), ("b", 2), ("c", 3), ("d", 4)]⟩ ["0", "1"]).out = ["c", "b"] ∧
      (removeDuplicates insertionSort ⟨false, "interactive"⟩ []
        [("h2", ["c", "d"]), ("h1", ["a", "b"])]
        ⟨[("a", 1), ("b", 2), ("c", 3), ("d", 4)]⟩ ["0", "1"]).crashed = false) ∧
    (wouldRemovePaths (removeDuplicates insertionSort ⟨true, "newest"⟩ []
        [("h2", ["c", "d"]), ("h1", ["a", "b"])]
        ⟨[("a", 1), ("c", 3), ("d", 4)]⟩ []).out = ["c"] ∧
      removingPaths (removeDuplicates insertionSort ⟨false, "newest"⟩ []
        [("h1", ["a", "b"]), ("h2", ["c", "d"])]
        ⟨[("a", 1), ("c", 3), ("d", 4)]⟩ []).out = []) :=
  ⟨List.Perm.swap ("h2", ["c", "d"]) ("h1", ["a", "b"]) [],
   by decide, by decide⟩

/-- Claim C4, amended: a dry run leaves the file system as it was and passes
no path to `os.Remove`, for every input.  When the call with `dryRun = false`
runs to completion, the dry run completes too and the set of paths it reports
as "Would remove" is the set of paths that call passes to `os.Remove`,
provided both calls visit the buckets in the same order or, for any two
visiting orders, `removeBy` is not "interactive". -/
theorem C4_dry_run (srt : Sorter) (removeBy : String)
    (referentHashes fileHashes : HashMap) (fs : FileSystem) (stdin : List String) :
    (removeDuplicates srt ⟨true, removeBy⟩ referentHashes fileHashes fs stdin).fs = fs ∧
    removingPaths
      (removeDuplicates srt ⟨true, removeBy⟩ referentHashes fileHashes fs stdin).out = [] ∧
    (SortSliceContract srt → SortSliceCompares srt →
      ((removeDuplicates srt ⟨false, removeBy⟩ referentHashes fileHashes fs
          stdin).crashed = false →
        (removeDuplicates srt ⟨true, removeBy⟩ referentHashes fileHashes fs
          stdin).crashed = false ∧
        ∀ p, p ∈ wouldRemovePaths
            (removeDuplicates srt ⟨true, removeBy⟩ referentHashes fileHashes fs stdin).out
          ↔ p ∈ removingPaths
            (removeDuplicates srt ⟨false, removeBy⟩ referentHashes fileHashes fs
              stdin).out) ∧
      (∀ order2 : HashMap, fileHashes.Perm order2 → removeBy ≠ "interactive" →
        (removeDuplicates srt ⟨false, removeBy⟩ referentHashes order2 fs
          stdin).crashed = false →
        (removeDuplicates srt ⟨true, removeBy⟩ referentHashes fileHashes fs
          stdin).crashed = false ∧
        ∀ p, p ∈ wouldRemovePaths
            (removeDuplicates srt ⟨true, removeBy⟩ referentHashes fileHashes fs stdin).out
          ↔ p ∈ removingPaths
            (removeDuplicates srt ⟨false, removeBy⟩ referentHashes order2 fs
              stdin).out)) := by
  refine ⟨removeDuplicates_dry srt removeBy referentHashes fileHashes fs stdin,
    removeDuplicates_dry_calls srt removeBy referentHashes fileHashes fs stdin, ?_⟩
  intro hs hc
  constructor
  · intro hreal
    have h := removeDuplicates_real_dry srt hs hc removeBy referentHashes fileHashes fs fs
      stdin (fun _ _ ht => ht) hreal
    exact ⟨h.1, fun p => by rw [h.2.2]⟩
  · intro order2 hperm hni hreal
    have h2 := removeDuplicates_real_dry srt hs hc removeBy referentHashes order2 fs fs
      stdin (fun _ _ ht => ht) hreal
    have hd1 := removeDuplicates_dry_buckets srt removeBy referentHashes fs stdin hni
      fileHashes
    have hd2 := removeDuplicates_dry_buckets srt removeBy referentHashes fs stdin hni
      order2
    have hc1 : (removeDuplicates srt ⟨true, removeBy⟩ referentHashes fileHashes fs
        stdin).crashed = false := by
      rw [hd1.1]
      intro b hb
      exact hd2.1.1 h2.1 b (hperm.subset hb)
    refine ⟨hc1, ?_⟩
    intro p
    rw [← h2.2.2, hd1.2 hc1 p, hd2.2 h2.1 p]
    constructor
    · intro ⟨b, hb, hp⟩
      exact ⟨b, hperm.subset hb, hp⟩
    · intro ⟨b, hb, hp⟩
      exact ⟨b, hperm.symm.subset hb, hp⟩

/-- The buckets of the contents "A", "A", "B", visited in the two possible
orders under "newest": the dry run reports the older copy of "A", which is the
path the real run passes to `os.Remove`. -/
theorem C4_dry_run_witness :
    (SortSliceContract insertionSort ∧ SortSliceCompares insertionSort ∧
      ([("A", ["file1", "file2"]), ("B", ["file3"])] : HashMap).Perm
        [("B", ["file3"]), ("A", ["file1", "file2"])] ∧
      "newest" ≠ "interactive" ∧
      (removeDuplicates insertionSort ⟨false, "newest"⟩ []
        [("B", ["file3"]), ("A", ["file1", "file2"])]
        ⟨[("file1", 1), ("file2", 2), ("file3", 3)]⟩ []).crashed = false) ∧
    ((removeDuplicates insertionSort ⟨true, "newest"⟩ []
        [("A", ["file1", "file2"]), ("B", ["file3"])]
        ⟨[("file1", 1), ("file2", 2), ("file3", 3)]⟩ []).crashed = false ∧
      ∀ p, p ∈ wouldRemovePaths
          (removeDuplicates insertionSort ⟨true, "newest"⟩ []
            [("A", ["file1", "file2"]), ("B", ["file3"])]
            ⟨[("file1", 1), ("file2", 2), ("file3", 3)]⟩ []).out
        ↔ p ∈ removingPaths
          (removeDuplicates insertionSort ⟨false, "newest"⟩ []
            [("B", ["file3"]), ("A", ["file1", "file2"])]
            ⟨[("file1", 1), ("file2", 2), ("file3", 3)]⟩ []).out) ∧
    (removeDuplicates insertionSort ⟨true, "newest"⟩ []
        [("A", ["file1", "file2"]), ("B", ["file3"])]
        ⟨[("file1", 1), ("file2", 2), ("file3", 3)]⟩ [])
      = ⟨⟨[("file1", 1), ("file2", 2), ("file3", 3)]⟩, [], [Event.wouldRemove "file1"],
         false⟩ ∧
    removingPaths (removeDuplicates insertionSort ⟨false, "newest"⟩ []
        [("B", ["file3"]), ("A", ["file1", "file2"])]
        ⟨[("file1", 1), ("file2", 2), ("file3", 3)]⟩ []).out = ["file1"] :=
  ⟨⟨insertionSort_contract, insertionSort_compares,
     List.Perm.swap ("B", ["file3"]) ("A", ["file1", "file2"]) [], by decide, by decide⟩,
   ((C4_dry_run insertionSort "newest" []
      [("A", ["file1", "file2"]), ("B", ["file3"])]
      ⟨[("file1", 1), ("file2", 2), ("file3", 3)]⟩ []).2.2 insertionSort_contract
      insertionSort_compares).2 [("B", ["file3"]), ("A", ["file1", "file2"])]
      (List.Perm.swap ("B", ["file3"]) ("A", ["file1", "file2"]) []) (by decide)
      (by decide),
   by decide, by decide⟩

/-! ## The shared map of hashFiles -/

theorem mapGet_appendTo (m : HashMap) (k0 : String) (f : Path) (k : String) :
    mapGet (appendTo m k0 f) k
      = if k = k0 then mapGet m k0 ++ [f] else mapGet m k := by
  induction m with
  | nil =>
    by_cases h : k = k0
    · subst h; simp [appendTo, mapGet]
    · have h2 : ¬ k0 = k := fun e => h e.symm
      simp [appendTo, mapGet, h, h2]
  | cons e rest ih =>
    obtain ⟨k2, bucket⟩ := e
    unfold appendTo
    by_cases h2 : k2 = k0
    · subst h2
      by_cases h : k = k2
      · subst h; simp [mapGet]
      · have h3 : ¬ k2 = k := fun e => h e.symm
        simp [mapGet, h, h3]
    · simp only [h2, if_false]
      by_cases h : k = k0
      · subst h
        have hk : (k2 == k) = false := by simpa using h2
        simp only [mapGet, List.find?_cons, hk, if_true] at ih ⊢
        exact ih
      · by_cases h3 : k2 = k
        · subst h3; simp [mapGet, h]
        · have hk : (k2 == k) = false := by simpa using h3
          simp only [mapGet, List.find?_cons, hk, h, if_false] at ih ⊢
          exact ih

theorem mapKeys_appendTo (m : HashMap) (k0 : String) (f : Path) :
    mapKeys (appendTo m k0 f) = if k0 ∈ mapKeys m then mapKeys m else mapKeys m ++ [k0] := by
  induction m with
  | nil => simp [appendTo, mapKeys]
  | cons e rest ih =>
    obtain ⟨k2, bucket⟩ := e
    unfold appendTo
    by_cases h2 : k2 = k0
    · subst h2; simp [mapKeys]
    · have h3 : ¬ k0 = k2 := fun e => h2 e.symm
      simp only [h2, if_false]
      unfold mapKeys at ih ⊢
      simp only [List.map_cons, List.mem_cons, h3, false_or]
      rw [ih]
      by_cases hm : k0 ∈ List.map Prod.fst rest
      · simp [hm]
      · simp [hm]

theorem mem_mapKeys_iff (m : HashMap) (hne : ∀ e ∈ m, e.2 ≠ []) (k : String) :
    k ∈ mapKeys m ↔ mapGet m k ≠ [] := by
  induction m with
  | nil => simp [mapKeys, mapGet]
  | cons e rest ih =>
    obtain ⟨k2, bucket⟩ := e
    have ih2 := ih (fun e he => hne e (List.mem_cons_of_mem _ he))
    have hb : bucket ≠ [] := hne (k2, bucket) (List.mem_cons_self _ _)
    by_cases h : k2 = k
    · subst h
      simp [mapKeys, mapGet, hb]
    · have hk : (k2 == k) = false := by simpa using h
      have h3 : ¬ k = k2 := fun e => h e.symm
      unfold mapKeys at ih2 ⊢
      simp only [List.map_cons, List.mem_cons, h3, false_or]
      rw [ih2]
      simp only [mapGet, List.find?_cons, hk]

theorem appendTo_nonempty (m : HashMap) (k0 : String) (f : Path)
    (hne : ∀ e ∈ m, e.2 ≠ []) : ∀ e ∈ appendTo m k0 f, e.2 ≠ [] := by
  induction m with
  | nil =>
    intro e he
    simp [appendTo] at he
    subst he
    simp
  | cons e0 rest ih =>
    obtain ⟨k2, bucket⟩ := e0
    intro e he
    unfold appendTo at he
    by_cases h2 : k2 = k0
    · simp only [h2, if_true] at he
      rcases List.mem_cons.1 he with h | h
      · subst h; simp
      · exact hne e (List.mem_cons_of_mem _ h)
    · simp only [h2, if_false] at he
      rcases List.mem_cons.1 he with h | h
      · subst h; exact hne _ (List.mem_cons_self _ _)
      · exact ih (fun e he => hne e (List.mem_cons_of_mem _ he)) e h

theorem find_eraseP_perm {α : Type} (p : α → Bool) (l : List α) (a : α)
    (h : l.find? p = some a) : l.Perm (a :: l.eraseP p) := by
  induction l with
  | nil => simp at h
  | cons x xs ih =>
    by_cases hp : p x = true
    · rw [List.find?_cons_of_pos _ hp] at h
      cases h
      simp [List.eraseP_cons, hp]
    · rw [List.find?_cons_of_neg _ hp] at h
      have hp2 : p x = false := by simpa using hp
      rw [List.eraseP_cons, hp2]
      simp only [cond_false]
      exact ((ih h).cons x).trans (List.Perm.swap a x _)

/-! ## The worker pool -/

theorem poolInv_init (computeHash : HashOracle) (threads : Nat) (files : List Path) :
    PoolInv computeHash threads files ⟨files, [], []⟩ := by
  refine ⟨by simp, by simp [mapKeys], by simp, [], by simp, ?_⟩
  intro k
  simp [mapGet]

theorem poolInv_step (computeHash : HashOracle) (threads : Nat) (files : List Path)
    (w : Nat) (s : PoolState) (h : PoolInv computeHash threads files s) :
    PoolInv computeHash threads files (workerStep computeHash threads w s) := by
  obtain ⟨hbusy, hnd, hne, handled, hperm, hmap⟩ := h
  unfold workerStep
  by_cases hw : w < threads
  · simp only [hw, if_true]
    cases hfind : s.busy.find? (fun e => e.1 == w) with
    | some e =>
      simp only
      have hbp := find_eraseP_perm (fun e => e.1 == w) s.busy e hfind
      have hbusy2 : ∀ e2 ∈ s.busy.eraseP (fun e => e.1 == w), e2.1 < threads :=
        fun e2 he2 => hbusy e2 (List.mem_of_mem_eraseP he2)
      have hperm2 : (handled ++ [e.2] ++ (s.busy.eraseP (fun e => e.1 == w)).map Prod.snd
          ++ s.queue).Perm files := by
        refine List.Perm.trans ?_ hperm
        have h1 : (e.2 :: (s.busy.eraseP (fun e => e.1 == w)).map Prod.snd).Perm
            (s.busy.map Prod.snd) := by
          have := (hbp.map Prod.snd).symm
          simpa using this
        have h2 := (h1.append_left handled).append_right s.queue
        simpa using h2
      cases hh : computeHash e.2 with
      | none =>
        simp only
        refine ⟨hbusy2, hnd, hne, handled ++ [e.2], hperm2, ?_⟩
        intro k
        have hk : (hashString computeHash e.2 == some k) = false := by
          simp [hashString, hh]
        rw [List.filter_append]
        simp only [List.filter_cons, hk, List.filter_nil, Bool.false_eq_true, if_false,
          List.append_nil]
        exact hmap k
      | some hash =>
        simp only
        have hs : hashString computeHash e.2 = some (sprintfHex hash) := by
          simp [hashString, hh]
        refine ⟨hbusy2, ?_, appendTo_nonempty _ _ _ hne, handled ++ [e.2], hperm2, ?_⟩
        · rw [mapKeys_appendTo]
          by_cases hm : sprintfHex hash ∈ mapKeys s.hashMap
          · simp only [hm, if_true]; exact hnd
          · simp only [hm, if_false]
            rw [List.nodup_append]
            refine ⟨hnd, by simp, ?_⟩
            intro a ha hb
            simp at hb
            subst hb
            exact hm ha
        · intro k
          rw [mapGet_appendTo, List.filter_append]
          by_cases hk : k = sprintfHex hash
          · subst hk
            simp only [if_true, List.filter_cons, hs, beq_self_eq_true, List.filter_nil]
            exact (hmap _).append_right _
          · have hk2 : (hashString computeHash e.2 == some k) = false := by
              rw [hs]
              simpa using fun e => hk e.symm
            simp only [hk, if_false, List.filter_cons, hk2, List.filter_nil,
              Bool.false_eq_true, List.append_nil]
            exact hmap k
    | none =>
      simp only
      cases hq : s.queue with
      | nil =>
        simp only
        exact ⟨hbusy, hnd, hne, handled, hperm, hmap⟩
      | cons f rest =>
        simp only
        refine ⟨?_, hnd, hne, handled, ?_, hmap⟩
        · intro e he
          rcases List.mem_cons.1 he with h1 | h1
          · subst h1; exact hw
          · exact hbusy e h1
        · refine List.Perm.trans ?_ hperm
          rw [hq]
          simp only [List.map_cons, List.append_assoc, List.cons_append]
          exact (List.perm_middle.symm.append_left handled)
  · simp only [hw, if_false]
    exact ⟨hbusy, hnd, hne, handled, hperm, hmap⟩

theorem poolInv_run (computeHash : HashOracle) (threads : Nat) (files : List Path)
    (sched : List Nat) :
    ∀ s : PoolState, PoolInv computeHash threads files s →
      PoolInv computeHash threads files (runPool computeHash threads sched s) := by
  induction sched with
  | nil => intro s h; exact h
  | cons w rest ih =>
    intro s h
    exact ih _ (poolInv_step computeHash threads files w s h)

theorem runPool_append (computeHash : HashOracle) (threads : Nat) (a b : List Nat)
    (s : PoolState) :
    runPool computeHash threads (a ++ b) s
      = runPool computeHash threads b (runPool computeHash threads a s) := by
  unfold runPool
  rw [List.foldl_append]

theorem pool_progress (computeHash : HashOracle) (threads : Nat) (s : PoolState)
    (hthreads : 1 ≤ threads) (hbusy : ∀ e ∈ s.busy, e.1 < threads)
    (hdone : poolDone threads s = false) :
    ∃ w, poolMeasure (workerStep computeHash threads w s) < poolMeasure s := by
  obtain ⟨queue, busy, hashMap⟩ := s
  cases busy with
  | cons e rest =>
    refine ⟨e.1, ?_⟩
    have hw : e.1 < threads := hbusy e (List.mem_cons_self _ _)
    unfold workerStep
    simp only [hw, if_true, List.find?_cons, beq_self_eq_true, List.eraseP_cons, cond_true]
    cases computeHash e.2 <;> simp [poolMeasure]
  | nil =>
    cases queue with
    | nil =>
      have hz : ¬ threads = 0 := by omega
      simp [poolDone, hz] at hdone
    | cons f q =>
      refine ⟨0, ?_⟩
      have hw : 0 < threads := hthreads
      unfold workerStep
      simp only [hw, if_true, List.find?_nil]
      simp [poolMeasure]
      omega

theorem pool_completes (computeHash : HashOracle) (threads : Nat) (files : List Path)
    (hthreads : 1 ≤ threads) :
    ∀ (n : Nat) (s : PoolState), PoolInv computeHash threads files s →
      poolMeasure s ≤ n →
      ∃ more : List Nat, more.length ≤ n ∧
        poolDone threads (runPool computeHash threads more s) = true := by
  intro n
  induction n with
  | zero =>
    intro s _ hm
    refine ⟨[], by simp, ?_⟩
    obtain ⟨queue, busy, hashMap⟩ := s
    simp only [poolMeasure, Nat.le_zero, Nat.add_eq_zero, mul_eq_zero,
      List.length_eq_zero] at hm
    rcases hm with ⟨hq, hb⟩
    have hq2 : queue = [] := by
      rcases hq with h | h
      · omega
      · exact h
    subst hq2
    subst hb
    simp [runPool, poolDone]
  | succ n ih =>
    intro s hinv hm
    by_cases hd : poolDone threads s = true
    · exact ⟨[], by simp, by simpa [runPool] using hd⟩
    · have hd2 : poolDone threads s = false := by simpa using hd
      obtain ⟨w, hw⟩ := pool_progress computeHash threads s hthreads hinv.1 hd2
      obtain ⟨more, hlen, hfin⟩ := ih (workerStep computeHash threads w s)
        (poolInv_step computeHash threads files w s hinv) (by omega)
      refine ⟨w :: more, by simp; omega, ?_⟩
      simpa [runPool] using hfin

theorem pool_final (computeHash : HashOracle) (threads : Nat) (files : List Path)
    (hthreads : 1 ≤ threads) (s : PoolState) (hinv : PoolInv computeHash threads files s)
    (hdone : poolDone threads s = true) :
    (mapKeys s.hashMap).Nodup ∧
    (∀ k, (mapGet s.hashMap k).Perm
      (files.filter (fun p => hashString computeHash p == some k))) ∧
    (∀ k, k ∈ mapKeys s.hashMap ↔ ∃ p ∈ files, hashString computeHash p = some k) := by
  obtain ⟨_, hnd, hne, handled, hperm, hmap⟩ := hinv
  have hz : ¬ threads = 0 := by omega
  simp only [poolDone, Bool.and_eq_true, List.isEmpty_iff, Bool.or_eq_true, beq_iff_eq,
    hz, false_or] at hdone
  rw [hdone.1, hdone.2] at hperm
  simp only [List.map_nil, List.append_nil] at hperm
  have hbuckets : ∀ k, (mapGet s.hashMap k).Perm
      (files.filter (fun p => hashString computeHash p == some k)) :=
    fun k => (hmap k).trans (hperm.filter _)
  refine ⟨hnd, hbuckets, ?_⟩
  intro k
  rw [mem_mapKeys_iff s.hashMap hne k]
  constructor
  · intro h
    obtain ⟨p, hp⟩ := List.exists_mem_of_ne_nil _ h
    have hp2 := (hbuckets k).subset hp
    rw [List.mem_filter] at hp2
    exact ⟨p, hp2.1, by simpa using hp2.2⟩
  · intro ⟨p, hp, hk⟩ hnil
    have hmem : p ∈ files.filter (fun p => hashString computeHash p == some k) := by
      rw [List.mem_filter]
      exact ⟨hp, by simpa using hk⟩
    have := (hbuckets k).symm.subset hmem
    rw [hnil] at this
    simp at this

/-- Claim C6: with at least one worker, whenever `hashFiles` returns, each key
of the map is the hex digest of some input path that hashed, the bucket of a
digest holds exactly the input paths that hash to it, a path whose hashing
fails is in no bucket, and one worker and `threads` workers fill every bucket
with the same paths; and every partial run of the pool can be run to its end,
within two moves per input path. -/
theorem C6_hashFiles_buckets (computeHash : HashOracle) (threads : Nat)
    (files : List Path) (hthreads : 1 ≤ threads) :
    (∀ (sched : List Nat) (m : HashMap),
      hashFiles computeHash threads files sched = some m →
        (mapKeys m).Nodup ∧
        (∀ k, (mapGet m k).Perm
          (files.filter (fun p => hashString computeHash p == some k))) ∧
        (∀ k, k ∈ mapKeys m ↔ ∃ p ∈ files, hashString computeHash p = some k) ∧
        (∀ p, hashString computeHash p = none → ∀ k, p ∉ mapGet m k) ∧
        (∀ (sched1 : List Nat) (m1 : HashMap),
          hashFiles computeHash 1 files sched1 = some m1 →
            (∀ k, k ∈ mapKeys m1 ↔ k ∈ mapKeys m) ∧
            ∀ k, (mapGet m1 k).Perm (mapGet m k))) ∧
    (∀ sched : List Nat, ∃ more : List Nat, more.length ≤ 2 * files.length ∧
      (hashFiles computeHash threads files (sched ++ more)).isSome = true) := by
  have hchar : ∀ (t : Nat), 1 ≤ t → ∀ (sched : List Nat) (m : HashMap),
      hashFiles computeHash t files sched = some m →
        (mapKeys m).Nodup ∧
        (∀ k, (mapGet m k).Perm
          (files.filter (fun p => hashString computeHash p == some k))) ∧
        (∀ k, k ∈ mapKeys m ↔ ∃ p ∈ files, hashString computeHash p = some k) := by
    intro t ht sched m h
    unfold hashFiles at h
    simp only at h
    by_cases hd : poolDone t (runPool computeHash t sched ⟨files, [], []⟩) = true
    · rw [if_pos hd] at h
      cases h
      exact pool_final computeHash t files ht _
        (poolInv_run computeHash t files sched _ (poolInv_init computeHash t files)) hd
    · rw [if_neg hd] at h
      cases h
  constructor
  · intro sched m h
    obtain ⟨h1, h2, h3⟩ := hchar threads hthreads sched m h
    refine ⟨h1, h2, h3, ?_, ?_⟩
    · intro p hp k hm
      have := (h2 k).subset hm
      rw [List.mem_filter, hp] at this
      simp at this
    · intro sched1 m1 hm1
      obtain ⟨_, g2, g3⟩ := hchar 1 (le_refl 1) sched1 m1 hm1
      exact ⟨fun k => (g3 k).trans (h3 k).symm, fun k => (g2 k).trans (h2 k).symm⟩
  · intro sched
    have hinv := poolInv_run computeHash threads files sched _
      (poolInv_init computeHash threads files)
    obtain ⟨_, _, _, handled, hperm, _⟩ := id hinv
    have hmeasure : poolMeasure (runPool computeHash threads sched ⟨files, [], []⟩)
        ≤ 2 * files.length := by
      have hl := hperm.length_eq
      simp only [List.length_append, List.length_map] at hl
      unfold poolMeasure
      omega
    obtain ⟨more, hlen, hfin⟩ := pool_completes computeHash threads files hthreads
      (2 * files.length) _ hinv hmeasure
    refine ⟨more, hlen, ?_⟩
    unfold hashFiles
    simp only
    rw [runPool_append, if_pos hfin]
    rfl

/-- Two workers over f1, f2, f3 and a path that cannot be opened, with the
second worker storing f2 before the first stores f1. -/
theorem C6_hashFiles_buckets_witness :
    (1 ≤ 2 ∧
      hashFiles sampleHash 2 ["f1", "f2", "f3", "gone"] [0, 1, 1, 0, 0, 1, 0, 1]
        = some [("ab01", ["f2", "f1"]), ("3cff", ["f3"])] ∧
      hashFiles sampleHash 1 ["f1", "f2", "f3", "gone"] [0, 0, 0, 0, 0, 0, 0, 0]
        = some [("ab01", ["f1", "f2"]), ("3cff", ["f3"])]) ∧
    (∀ k, (mapGet [("ab01", ["f2", "f1"]), ("3cff", ["f3"])] k).Perm
      (["f1", "f2", "f3", "gone"].filter (fun p => hashString sampleHash p == some k))) :=
  ⟨⟨by decide, by decide, by decide⟩,
   ((C6_hashFiles_buckets sampleHash 2 ["f1", "f2", "f3", "gone"] (by decide)).1
     [0, 1, 1, 0, 0, 1, 0, 1] [("ab01", ["f2", "f1"]), ("3cff", ["f3"])] (by decide)).2.1⟩

end RemoveDuplicates
